import Mathlib

/-!
Shallow embedding of the QMASM utility core (`qmasm/utils.py` and
`qmasm/output.py`): the symbol table, edge canonicalization, Chimera
topology inference, coupler addressing and the embeddability pre-check.

Python dicts are modelled as insertion-ordered association lists whose
keys are kept unique by construction; Python sets are modelled as
duplicate-free lists.  Failure paths (exceptions, `abend`, division by
zero) are modelled with `Option` / `Except`.  Real-valued weights are
modelled by `ℚ`.
-/

namespace QMasm

variable {α : Type} {β : Type} [DecidableEq α]

/-- Dictionary lookup `d[k]`: the first entry whose key matches (`none`
models a `KeyError`). -/
def lookupKV : List (α × β) → α → Option β
  | [], _ => none
  | e :: rest, k => if e.1 = k then some e.2 else lookupKV rest k

/-- Python dict assignment `d[k] = v`: update the existing entry in place,
or append a fresh entry at the end. -/
def dictInsert : List (α × β) → α → β → List (α × β)
  | [], k, v => [(k, v)]
  | e :: rest, k, v => if e.1 = k then (k, v) :: rest else e :: dictInsert rest k v

/-- Python dict deletion `del d[k]`. -/
def dictRemove : List (α × β) → α → List (α × β)
  | [], _ => []
  | e :: rest, k => if e.1 = k then dictRemove rest k else e :: dictRemove rest k

theorem lookupKV_nil (k : α) : lookupKV ([] : List (α × β)) k = none := rfl

theorem lookupKV_cons (e : α × β) (rest : List (α × β)) (k : α) :
    lookupKV (e :: rest) k = if e.1 = k then some e.2 else lookupKV rest k := rfl

theorem lookupKV_dictInsert (d : List (α × β)) (k : α) (v : β) (k' : α) :
    lookupKV (dictInsert d k v) k' = if k' = k then some v else lookupKV d k' := by
  induction d with
  | nil =>
      by_cases h : k' = k
      · simp [dictInsert, lookupKV, h]
      · simp [dictInsert, lookupKV, h, Ne.symm h]
  | cons e rest ih =>
      by_cases he : e.1 = k
      · by_cases h : k' = k
        · simp [dictInsert, lookupKV, he, h]
        · simp [dictInsert, lookupKV, he, h, Ne.symm h]
      · by_cases h : k' = e.1
        · have hne : ¬ k' = k := fun hh => he (h.symm.trans hh)
          simp [dictInsert, lookupKV, he, h.symm, hne]
        · simp [dictInsert, lookupKV, he, Ne.symm h, ih]

theorem lookupKV_dictRemove (d : List (α × β)) (k k' : α) :
    lookupKV (dictRemove d k) k' = if k' = k then none else lookupKV d k' := by
  induction d with
  | nil => simp [dictRemove, lookupKV]
  | cons e rest ih =>
      by_cases he : e.1 = k
      · by_cases h : k' = k
        · subst h; simp [dictRemove, lookupKV, he, ih]
        · simp [dictRemove, lookupKV, he, h, Ne.symm h, ih]
      · by_cases h : k' = e.1
        · have hne : ¬ k' = k := fun hh => he (h.symm.trans hh)
          simp [dictRemove, lookupKV, he, h.symm, hne]
        · simp [dictRemove, lookupKV, he, Ne.symm h, ih]

theorem mem_dictInsert_cases (d : List (α × β)) (k : α) (v : β) (e : α × β)
    (h : e ∈ dictInsert d k v) : e = (k, v) ∨ e ∈ d := by
  induction d with
  | nil => simpa [dictInsert] using h
  | cons a rest ih =>
      by_cases ha : a.1 = k
      · simp only [dictInsert, if_pos ha, List.mem_cons] at h
        rcases h with h | h
        · exact Or.inl h
        · exact Or.inr (List.mem_cons_of_mem _ h)
      · simp only [dictInsert, if_neg ha, List.mem_cons] at h
        rcases h with h | h
        · exact Or.inr (by simp [h])
        · rcases ih h with h' | h'
          · exact Or.inl h'
          · exact Or.inr (List.mem_cons_of_mem _ h')

theorem keys_dictInsert_subset (d : List (α × β)) (k : α) (v : β) (x : α)
    (h : x ∈ (dictInsert d k v).map Prod.fst) : x ∈ d.map Prod.fst ∨ x = k := by
  simp only [List.mem_map] at h
  rcases h with ⟨e, he, hx⟩
  rcases mem_dictInsert_cases d k v e he with h' | h'
  · right; rw [← hx, h']
  · left; exact List.mem_map.mpr ⟨e, h', hx⟩

theorem nodupKeys_dictInsert (d : List (α × β)) (k : α) (v : β)
    (h : (d.map Prod.fst).Nodup) : ((dictInsert d k v).map Prod.fst).Nodup := by
  induction d with
  | nil => simp [dictInsert]
  | cons a rest ih =>
      simp only [List.map_cons, List.nodup_cons] at h
      by_cases ha : a.1 = k
      · rw [show dictInsert (a :: rest) k v = (k, v) :: rest from by simp [dictInsert, ha]]
        simp only [List.map_cons, List.nodup_cons]
        exact ⟨ha ▸ h.1, h.2⟩
      · rw [show dictInsert (a :: rest) k v = a :: dictInsert rest k v from by
          simp [dictInsert, ha]]
        simp only [List.map_cons, List.nodup_cons]
        refine ⟨fun hmem => ?_, ih h.2⟩
        rcases keys_dictInsert_subset rest k v a.1 hmem with h' | h'
        · exact h.1 h'
        · exact ha h'

theorem lookupKV_append (d1 d2 : List (α × β)) (k : α) :
    lookupKV (d1 ++ d2) k =
      match lookupKV d1 k with
      | some v => some v
      | none => lookupKV d2 k := by
  induction d1 with
  | nil => simp [lookupKV]
  | cons e rest ih =>
      by_cases he : e.1 = k <;> simp [lookupKV, he, ih]

theorem dictInsert_of_lookup_none (d : List (α × β)) (k : α) (v : β)
    (h : lookupKV d k = none) : dictInsert d k v = d ++ [(k, v)] := by
  induction d with
  | nil => simp [dictInsert]
  | cons e rest ih =>
      by_cases he : e.1 = k
      · rw [lookupKV_cons, if_pos he] at h; cases h
      · rw [lookupKV_cons, if_neg he] at h
        simp [dictInsert, he, ih h]

/-! ### EdgeCanonicalizer (`canonicalize_strengths`, utils.py) -/

/-- Canonical ordering of an edge key: `if q1 > q2: q1, q2 = q2, q1`. -/
def canonKey (p : ℕ × ℕ) : ℕ × ℕ := if p.2 < p.1 then (p.2, p.1) else p

/-- Weight accumulation `new_strs[(q1, q2)] += wt` on a `defaultdict` whose
default value is 0 (a missing key is materialized as 0 before the addition,
so the key stays present even when the sum is 0). -/
def addWeight (d : List ((ℕ × ℕ) × ℚ)) (k : ℕ × ℕ) (wt : ℚ) : List ((ℕ × ℕ) × ℚ) :=
  match lookupKV d k with
  | some v => dictInsert d k (v + wt)
  | none => dictInsert d k (0 + wt)

/-- One iteration of the loop body of `canonicalize_strengths`. -/
def canonStep (acc : List ((ℕ × ℕ) × ℚ)) (e : (ℕ × ℕ) × ℚ) : List ((ℕ × ℕ) × ℚ) :=
  if e.1.1 = e.1.2 then acc
  else if e.2 = 0 then acc
  else addWeight acc (canonKey e.1) e.2

/-- Python `canonicalize_strengths(strs)`: combine edges (A, B) and (B, A)
into (A, B) with A < B, dropping self-loops and zero input weights. -/
def canonicalize_strengths (strs : List ((ℕ × ℕ) × ℚ)) : List ((ℕ × ℕ) × ℚ) :=
  strs.foldl canonStep []

/-- Value of a key in an edge-weight dict, defaulting to 0. -/
def getWt (d : List ((ℕ × ℕ) × ℚ)) (k : ℕ × ℕ) : ℚ := (lookupKV d k).getD 0

theorem canonKey_lt (p : ℕ × ℕ) (h : p.1 ≠ p.2) : (canonKey p).1 < (canonKey p).2 := by
  unfold canonKey
  by_cases hb : p.2 < p.1
  · rw [if_pos hb]
    exact hb
  · rw [if_neg hb]
    omega

theorem canonKey_of_lt (p : ℕ × ℕ) (h : p.1 < p.2) : canonKey p = p := by
  simp [canonKey, Nat.not_lt_of_lt h, Nat.lt_asymm h]

theorem getWt_addWeight (d : List ((ℕ × ℕ) × ℚ)) (k : ℕ × ℕ) (wt : ℚ) (k' : ℕ × ℕ) :
    getWt (addWeight d k wt) k' = if k' = k then getWt d k + wt else getWt d k' := by
  by_cases h : k' = k <;>
    cases hl : lookupKV d k <;>
      simp [addWeight, getWt, lookupKV_dictInsert, hl, h]

theorem mem_addWeight_cases (d : List ((ℕ × ℕ) × ℚ)) (k : ℕ × ℕ) (wt : ℚ)
    (e : (ℕ × ℕ) × ℚ) (h : e ∈ addWeight d k wt) : e.1 = k ∨ e ∈ d := by
  unfold addWeight at h
  cases hl : lookupKV d k <;> rw [hl] at h
  · rcases mem_dictInsert_cases _ _ _ _ h with h' | h'
    · exact Or.inl (by rw [h'])
    · exact Or.inr h'
  · rcases mem_dictInsert_cases _ _ _ _ h with h' | h'
    · exact Or.inl (by rw [h'])
    · exact Or.inr h'

theorem getWt_canonStep (acc : List ((ℕ × ℕ) × ℚ)) (e : (ℕ × ℕ) × ℚ) (k : ℕ × ℕ) :
    getWt (canonStep acc e) k =
      getWt acc k + (if e.1.1 ≠ e.1.2 ∧ canonKey e.1 = k then e.2 else 0) := by
  unfold canonStep
  by_cases h1 : e.1.1 = e.1.2
  · simp [h1]
  · by_cases h2 : e.2 = 0
    · rw [if_neg h1, if_pos h2]
      by_cases h3 : canonKey e.1 = k
      · simp [h1, h3, h2]
      · simp [h1, h3]
    · rw [if_neg h1, if_neg h2, getWt_addWeight]
      by_cases h3 : canonKey e.1 = k
      · rw [if_pos h3.symm, h3]
        rw [if_pos (show e.1.1 ≠ e.1.2 ∧ k = k from ⟨h1, rfl⟩)]
      · rw [if_neg (fun hh : k = canonKey e.1 => h3 hh.symm)]
        rw [if_neg (fun hc : e.1.1 ≠ e.1.2 ∧ canonKey e.1 = k => h3 hc.2), add_zero]

theorem getWt_foldl_canonStep (strs : List ((ℕ × ℕ) × ℚ)) (acc : List ((ℕ × ℕ) × ℚ))
    (k : ℕ × ℕ) :
    getWt (strs.foldl canonStep acc) k =
      getWt acc k +
        ((strs.filter (fun e => decide (e.1.1 ≠ e.1.2 ∧ canonKey e.1 = k))).map Prod.snd).sum := by
  induction strs generalizing acc with
  | nil => simp
  | cons e rest ih =>
      rw [List.foldl_cons, ih, getWt_canonStep, List.filter_cons]
      by_cases h : e.1.1 ≠ e.1.2 ∧ canonKey e.1 = k
      · rw [if_pos h, if_pos (decide_eq_true h)]
        simp only [List.map_cons, List.sum_cons]
        ring
      · rw [if_neg h, if_neg (fun hc => h (of_decide_eq_true hc))]
        ring

theorem keys_lt_foldl_canonStep (strs : List ((ℕ × ℕ) × ℚ)) (acc : List ((ℕ × ℕ) × ℚ))
    (hacc : ∀ e ∈ acc, e.1.1 < e.1.2) :
    ∀ e ∈ strs.foldl canonStep acc, e.1.1 < e.1.2 := by
  induction strs generalizing acc with
  | nil => simpa using hacc
  | cons e rest ih =>
      rw [List.foldl_cons]
      refine ih _ (fun e' he' => ?_)
      unfold canonStep at he'
      by_cases h1 : e.1.1 = e.1.2
      · exact hacc e' (by simpa [h1] using he')
      · by_cases h2 : e.2 = 0
        · exact hacc e' (by simpa [h1, h2] using he')
        · rw [if_neg h1, if_neg h2] at he'
          rcases mem_addWeight_cases _ _ _ _ he' with h' | h'
          · rw [h']; exact canonKey_lt e.1 h1
          · exact hacc e' h'

theorem nodupKeys_foldl_canonStep (strs : List ((ℕ × ℕ) × ℚ)) (acc : List ((ℕ × ℕ) × ℚ))
    (hacc : (acc.map Prod.fst).Nodup) :
    ((strs.foldl canonStep acc).map Prod.fst).Nodup := by
  induction strs generalizing acc with
  | nil => simpa using hacc
  | cons e rest ih =>
      rw [List.foldl_cons]
      refine ih _ ?_
      unfold canonStep
      by_cases h1 : e.1.1 = e.1.2
      · simpa [h1] using hacc
      · by_cases h2 : e.2 = 0
        · simpa [h1, h2] using hacc
        · rw [if_neg h1, if_neg h2]
          unfold addWeight
          cases hl : lookupKV acc (canonKey e.1) <;> exact nodupKeys_dictInsert _ _ _ hacc

theorem foldl_canonStep_append (l : List ((ℕ × ℕ) × ℚ)) (acc : List ((ℕ × ℕ) × ℚ))
    (hkeys : ∀ e ∈ l, e.1.1 < e.1.2) (hwt : ∀ e ∈ l, e.2 ≠ 0)
    (hnd : (l.map Prod.fst).Nodup) (hdisj : ∀ e ∈ l, lookupKV acc e.1 = none) :
    l.foldl canonStep acc = acc ++ l := by
  induction l generalizing acc with
  | nil => simp
  | cons e rest ih =>
      have hlt : e.1.1 < e.1.2 := hkeys e (List.mem_cons_self e rest)
      have h1 : ¬ e.1.1 = e.1.2 := Nat.ne_of_lt hlt
      have h2 : ¬ e.2 = 0 := hwt e (List.mem_cons_self e rest)
      have hck : canonKey e.1 = e.1 := canonKey_of_lt e.1 hlt
      have hnone : lookupKV acc e.1 = none := hdisj e (List.mem_cons_self e rest)
      have hstep : canonStep acc e = acc ++ [(e.1, e.2)] := by
        unfold canonStep addWeight
        rw [if_neg h1, if_neg h2, hck, hnone, dictInsert_of_lookup_none _ _ _ hnone]
        simp
      rw [List.foldl_cons, hstep]
      simp only [List.map_cons, List.nodup_cons] at hnd
      have hdisj' : ∀ x ∈ rest, lookupKV (acc ++ [(e.1, e.2)]) x.1 = none := by
        intro x hx
        have hne : ¬ e.1 = x.1 := by
          intro hh
          exact hnd.1 (List.mem_map.mpr ⟨x, hx, hh.symm⟩)
        rw [lookupKV_append, hdisj x (List.mem_cons_of_mem _ hx)]
        simp [lookupKV, hne]
      rw [ih (acc ++ [(e.1, e.2)]) (fun x hx => hkeys x (List.mem_cons_of_mem _ hx))
          (fun x hx => hwt x (List.mem_cons_of_mem _ hx)) hnd.2 hdisj']
      simp

/-- C1 (amended): the output of `canonicalize_strengths` has only canonically
ordered keys (min, max) with min < max (hence no self-loops); the value it
associates to any canonical key is the sum of the weights of all
duplicate/reverse input entries mapping to that key; and it is idempotent on
every input whose canonicalization contains no exactly-zero accumulated
weight.  (Unconditional idempotence and absence of zero-weight entries, as
stated in the claim, fail when reverse entries cancel:
see `canonicalize_strengths_cex`.) -/
theorem canonicalize_strengths_amended (strs : List ((ℕ × ℕ) × ℚ)) :
    (∀ e ∈ canonicalize_strengths strs, e.1.1 < e.1.2) ∧
    (∀ k : ℕ × ℕ, k.1 < k.2 →
      getWt (canonicalize_strengths strs) k =
        ((strs.filter (fun e => decide (canonKey e.1 = k))).map Prod.snd).sum) ∧
    ((∀ e ∈ canonicalize_strengths strs, e.2 ≠ 0) →
      canonicalize_strengths (canonicalize_strengths strs) = canonicalize_strengths strs) := by
  refine ⟨keys_lt_foldl_canonStep strs [] (by simp), fun k hk => ?_, fun hnz => ?_⟩
  · rw [canonicalize_strengths, getWt_foldl_canonStep]
    have hfe :
        strs.filter (fun e => decide (e.1.1 ≠ e.1.2 ∧ canonKey e.1 = k)) =
          strs.filter (fun e => decide (canonKey e.1 = k)) := by
      refine List.filter_congr (fun e _ => ?_)
      by_cases hsl : e.1.1 = e.1.2
      · have hck : ¬ canonKey e.1 = k := by
          intro hc
          have h1 : canonKey e.1 = e.1 := by
            unfold canonKey
            rw [if_neg (by omega)]
          rw [h1] at hc
          rw [← hc] at hk
          omega
        simp [hsl, hck]
      · simp [hsl]
    rw [hfe]
    simp [getWt, lookupKV]
  · have hkeys := keys_lt_foldl_canonStep strs [] (by simp)
    have hnd := nodupKeys_foldl_canonStep strs [] (by simp)
    have := foldl_canonStep_append (canonicalize_strengths strs) []
      hkeys hnz hnd (fun e _ => rfl)
    simpa [canonicalize_strengths] using this

/-- C1 witness: a concrete instantiation of `canonicalize_strengths_amended`
at an input with a reverse duplicate whose weights do not cancel. -/
theorem canonicalize_strengths_witness :
    getWt (canonicalize_strengths [((2, 1), (5 : ℚ)), ((1, 2), 2)]) (1, 2) = 7 ∧
    canonicalize_strengths (canonicalize_strengths [((2, 1), (5 : ℚ)), ((1, 2), 2)]) =
      canonicalize_strengths [((2, 1), (5 : ℚ)), ((1, 2), 2)] := by
  have h := canonicalize_strengths_amended [((2, 1), (5 : ℚ)), ((1, 2), 2)]
  refine ⟨?_, h.2.2 ?_⟩
  · have hs := h.2.1 (1, 2) (by decide)
    rw [hs]
    norm_num [canonKey, List.filter]
  · norm_num [canonicalize_strengths, canonStep, addWeight, canonKey, lookupKV, dictInsert]

/-- C1 counterexample: on the input {(1,2) ↦ 3, (2,1) ↦ -3} the reverse
weights cancel, the canonicalized dict keeps the key (1,2) with weight
exactly 0, and canonicalizing a second time drops that key, so the two
dicts differ at key (1,2): the claimed unconditional idempotence and
absence of zero-weight output entries are both false. -/
theorem canonicalize_strengths_cex :
    canonicalize_strengths [((1, 2), (3 : ℚ)), ((2, 1), -3)] = [((1, 2), 0)] ∧
    canonicalize_strengths (canonicalize_strengths [((1, 2), (3 : ℚ)), ((2, 1), -3)]) = [] ∧
    lookupKV (canonicalize_strengths (canonicalize_strengths [((1, 2), (3 : ℚ)), ((2, 1), -3)]))
        (1, 2) ≠
      lookupKV (canonicalize_strengths [((1, 2), (3 : ℚ)), ((2, 1), -3)]) (1, 2) := by
  have h1 : canonicalize_strengths [((1, 2), (3 : ℚ)), ((2, 1), -3)] = [((1, 2), 0)] := by
    norm_num [canonicalize_strengths, canonStep, addWeight, canonKey, lookupKV, dictInsert]
  have h2 : canonicalize_strengths [((1, 2), (0 : ℚ))] = [] := by
    norm_num [canonicalize_strengths, canonStep]
  rw [h1, h2]
  refine ⟨rfl, rfl, by simp [lookupKV]⟩

/-! ### CouplerAddressing (`coupler_number`, output.py) -/

/-- Modelled from the spec: the external coordinate decomposition
`linear_index_to_chimera` (imported by `output.py` from `dwave_sapi2` or
`fake_dwave`, neither part of this repository).  It maps a linear qubit
index to `(row, column, shore, in-shore offset)` for a Chimera lattice
with M cell columns, N cell rows and shore size L, cells enumerated
row-major, each cell holding its shore-0 qubits then its shore-1 qubits. -/
def linear_index_to_chimera (M N L q : ℕ) : ℕ × ℕ × ℕ × ℕ :=
  (q / (2 * L * M), q / (2 * L) % M, q % (2 * L) / L, q % L)

/-- Python `coupler_number(M, N, L, q1, q2)`: map a pair of qubits to a
coupler number a la the dw command.  `none` models the `IndexError` raised
when no coupler exists between the two qubits. -/
def coupler_number (M N L q1 q2 : ℕ) : Option ℕ :=
  let dmin := linear_index_to_chimera M N L (min q1 q2)
  let dmax := linear_index_to_chimera M N L (max q1 q2)
  let imin := dmin.1
  let jmin := dmin.2.1
  let umin := dmin.2.2.1
  let kmin := dmin.2.2.2
  let imax := dmax.1
  let jmax := dmax.2.1
  let umax := dmax.2.2.1
  let kmax := dmax.2.2.2
  let cell_links := L * L
  if imin = imax ∧ jmin = jmax ∧ ¬ umin = umax then
    some (cell_links * (imin * M + jmin) + kmin * L + kmax)
  else
    let total_intra := cell_links * M * N
    if imin = imax ∧ jmin + 1 = jmax ∧ umin = umax ∧ kmin = kmax then
      some (total_intra + L * (imin * (M - 1) + jmin) + kmin)
    else
      let total_horiz := (M - 1) * N * L
      if imin + 1 = imax ∧ jmin = jmax ∧ umin = umax ∧ kmin = kmax then
        some (total_intra + total_horiz + L * (imin * M + jmin) + kmin)
      else none

/-- Modelled from the spec: intra-cell physical adjacency — same (row,
column), different shore. -/
def isIntraEdge (M N L q1 q2 : ℕ) : Bool :=
  let dmin := linear_index_to_chimera M N L (min q1 q2)
  let dmax := linear_index_to_chimera M N L (max q1 q2)
  decide (dmin.1 = dmax.1) && decide (dmin.2.1 = dmax.2.1) &&
    ! decide (dmin.2.2.1 = dmax.2.2.1)

/-- Modelled from the spec: horizontal physical adjacency — same row,
columns differing by one, same shore and in-shore offset.  A Chimera
lattice runs its horizontal inter-cell couplers along one shore only
(shore 1 in the standard convention); this matches the spec's coupler
count `totalHorizontal = (M-1)·N·L`. -/
def isHorizEdge (M N L q1 q2 : ℕ) : Bool :=
  let dmin := linear_index_to_chimera M N L (min q1 q2)
  let dmax := linear_index_to_chimera M N L (max q1 q2)
  decide (dmin.1 = dmax.1) && decide (dmin.2.1 + 1 = dmax.2.1) &&
    decide (dmin.2.2.1 = 1) &&
    decide (dmin.2.2.1 = dmax.2.2.1) && decide (dmin.2.2.2 = dmax.2.2.2)

/-- Modelled from the spec: vertical physical adjacency — same column,
rows differing by one, same shore and in-shore offset, on shore 0
(matching the spec's coupler count `totalVertical = (N-1)·M·L`). -/
def isVertEdge (M N L q1 q2 : ℕ) : Bool :=
  let dmin := linear_index_to_chimera M N L (min q1 q2)
  let dmax := linear_index_to_chimera M N L (max q1 q2)
  decide (dmin.1 + 1 = dmax.1) && decide (dmin.2.1 = dmax.2.1) &&
    decide (dmin.2.2.1 = 0) &&
    decide (dmin.2.2.1 = dmax.2.2.1) && decide (dmin.2.2.2 = dmax.2.2.2)

/-- Modelled from the spec: full physical adjacency of the Chimera lattice. -/
def chimeraAdjacent (M N L q1 q2 : ℕ) : Bool :=
  isIntraEdge M N L q1 q2 || isHorizEdge M N L q1 q2 || isVertEdge M N L q1 q2

/-- Modelled from the spec: the list of physical couplers of the (L, M, N)
Chimera graph, as ordered pairs (q1, q2) with q1 < q2 drawn from the
2·L·M·N qubit indices. -/
def chimeraEdges (M N L : ℕ) : List (ℕ × ℕ) :=
  ((List.range (2 * L * M * N)).flatMap fun a =>
      (List.range (2 * L * M * N)).map fun b => (a, b)).filter
    fun p => decide (p.1 < p.2) && chimeraAdjacent M N L p.1 p.2

/-- C3 (amended): for every qubit pair decomposed to the same (row, column)
but different shores under topology (L, M, N), `coupler_number` returns the
intra-cell address `L²·(row·M + col) + offsetMin·L + offsetMax`, where
`offsetMin` and `offsetMax` are the in-shore offsets from the decomposition
of the smaller-index and larger-index qubit respectively.  (The claim's
formula, read with the shore numbers in place of the in-shore offsets, is
refuted by `coupler_number_shore_cex`.) -/
theorem coupler_number_intra (M N L q1 q2 i j umin kmin umax kmax : ℕ)
    (h1 : linear_index_to_chimera M N L (min q1 q2) = (i, j, umin, kmin))
    (h2 : linear_index_to_chimera M N L (max q1 q2) = (i, j, umax, kmax))
    (hu : umin ≠ umax) :
    coupler_number M N L q1 q2 = some (L * L * (i * M + j) + kmin * L + kmax) := by
  simp only [coupler_number, h1, h2]
  simp [hu]

/-- C3 witness: `coupler_number_intra` applied to qubits 1 and 4 of the
(4, 2, 2) Chimera. -/
theorem coupler_number_intra_witness :
    coupler_number 2 2 4 1 4 = some (4 * 4 * (0 * 2 + 0) + 1 * 4 + 0) :=
  coupler_number_intra 2 2 4 1 4 0 0 0 1 1 0 (by decide) (by decide) (by decide)

/-- C3 counterexample: reading the claim's `shoreMin`/`shoreMax` as the
shore numbers of the two decompositions (their third components, here 0 and
1), the claimed formula yields `L²·0 + 0·L + 1 = 1` for qubits 1 and 4
under (L, M, N) = (4, 2, 2), but the code computes the address from the
in-shore offsets and returns 4. -/
theorem coupler_number_shore_cex :
    linear_index_to_chimera 2 2 4 1 = (0, 0, 0, 1) ∧
    linear_index_to_chimera 2 2 4 4 = (0, 0, 1, 0) ∧
    coupler_number 2 2 4 1 4 = some 4 ∧
    ¬ coupler_number 2 2 4 1 4 = some (4 * 4 * (0 * 2 + 0) + 0 * 4 + 1) := by
  refine ⟨by decide, by decide, by decide, by decide⟩

set_option maxRecDepth 100000 in
set_option maxHeartbeats 2000000 in
/-- C2: for the synthetic Chimera topology L=4, M=2, N=2 there are exactly
80 physical couplers — 64 intra-cell, 8 horizontal, 8 vertical — and
`coupler_number` succeeds on every physical edge, producing 80 pairwise
distinct IDs below 80, i.e. exactly the integer set {0,…,79}, each once. -/
theorem chimera_2x2x4_coupler_ids :
    (chimeraEdges 2 2 4).length = 80 ∧
    ((chimeraEdges 2 2 4).countP fun p => isIntraEdge 2 2 4 p.1 p.2) = 64 ∧
    ((chimeraEdges 2 2 4).countP fun p => isHorizEdge 2 2 4 p.1 p.2) = 8 ∧
    ((chimeraEdges 2 2 4).countP fun p => isVertEdge 2 2 4 p.1 p.2) = 8 ∧
    (∀ p ∈ chimeraEdges 2 2 4, (coupler_number 2 2 4 p.1 p.2).isSome = true) ∧
    ((chimeraEdges 2 2 4).filterMap fun p => coupler_number 2 2 4 p.1 p.2).length = 80 ∧
    ((chimeraEdges 2 2 4).filterMap fun p => coupler_number 2 2 4 p.1 p.2).Nodup ∧
    (∀ n ∈ (chimeraEdges 2 2 4).filterMap fun p => coupler_number 2 2 4 p.1 p.2, n < 80) := by
  decide

/-! ### TopologyInference (`chimera_topology`, utils.py) -/

/-- Failure modes of `chimera_topology`: `nonChimera` models the explicit
`NonChimera` exception; `indexError` models the uncaught Python error when
the coupler list is empty (`sorted_tallies` is empty / unassigned);
`zeroDivision` models the uncaught `ZeroDivisionError` when the inferred
shore size L is 0. -/
inductive TopErr where
  | nonChimera
  | indexError
  | zeroDivision
deriving DecidableEq

/-- Absolute index-distance `abs(c1 - c2)` of a coupler. -/
def deltaOf (c : ℕ × ℕ) : ℕ := max c.1 c.2 - min c.1 c.2

/-- Keys of the Python dict comprehension `{d: 0 for d in deltas}`: the
distinct values in first-appearance order. -/
def uniqueKeysAux (seen : List ℕ) : List ℕ → List ℕ
  | [] => []
  | d :: rest =>
      if d ∈ seen then uniqueKeysAux seen rest else d :: uniqueKeysAux (d :: seen) rest

/-- Tally dict of `chimera_topology`: distance ↦ multiplicity, keys kept in
first-appearance order. -/
def tallies (deltas : List ℕ) : List (ℕ × ℕ) :=
  (uniqueKeysAux [] deltas).map fun d => (d, deltas.count d)

/-- Stable insertion into a tally list sorted by descending tally.  Python
`sorted(..., key=tally, reverse=True)` is a stable descending sort. -/
def orderedInsertDesc (x : ℕ × ℕ) : List (ℕ × ℕ) → List (ℕ × ℕ)
  | [] => [x]
  | y :: ys => if y.2 ≤ x.2 then x :: y :: ys else y :: orderedInsertDesc x ys

/-- Stable descending-by-tally sort of the tally list. -/
def sortTalliesDesc : List (ℕ × ℕ) → List (ℕ × ℕ)
  | [] => []
  | x :: xs => orderedInsertDesc x (sortTalliesDesc xs)

/-- The `deltas` list of `chimera_topology`. -/
def topoDeltas (couplers : List (ℕ × ℕ)) : List ℕ := couplers.map deltaOf

/-- The `sorted_tallies` list of `chimera_topology`. -/
def topoSorted (couplers : List (ℕ × ℕ)) : List (ℕ × ℕ) :=
  sortTalliesDesc (tallies (topoDeltas couplers))

/-- Python `chimera_topology(solver)`: infer (L, M, N) from the solver's
coupler list and nominal qubit count (`none` models a missing
`num_qubits` property, raising `NonChimera`). -/
def chimera_topology (nominal_qubits : Option ℕ) (couplers : List (ℕ × ℕ)) :
    Except TopErr (ℕ × ℕ × ℕ) :=
  match nominal_qubits with
  | none => .error .nonChimera
  | some nq =>
      match topoSorted couplers with
      | [] => .error .indexError
      | (L, _) :: rest =>
          match rest.find? (fun dt => decide (2 * L < dt.1)) with
          | some dt =>
              if 2 * L = 0 then .error .zeroDivision
              else
                let M := dt.1 / (2 * L)
                .ok (L, M, (nq + 2 * L * M - 1) / (2 * L * M))
          | none =>
              let M := 1
              if 2 * L * M = 0 then .error .zeroDivision
              else .ok (L, M, (nq + 2 * L * M - 1) / (2 * L * M))

theorem mem_uniqueKeysAux (l : List ℕ) : ∀ (seen : List ℕ) (x : ℕ),
    x ∈ uniqueKeysAux seen l ↔ x ∈ l ∧ x ∉ seen := by
  induction l with
  | nil => intro seen x; simp [uniqueKeysAux]
  | cons d rest ih =>
      intro seen x
      by_cases hd : d ∈ seen
      · rw [uniqueKeysAux, if_pos hd, ih]
        by_cases hx : x = d
        · subst hx; simp [hd]
        · simp [hx]
      · rw [uniqueKeysAux, if_neg hd]
        by_cases hx : x = d
        · subst hx; simp [hd]
        · simp only [List.mem_cons, hx, false_or, ih, List.mem_cons]

theorem mem_orderedInsertDesc (x y : ℕ × ℕ) (l : List (ℕ × ℕ)) :
    y ∈ orderedInsertDesc x l ↔ y = x ∨ y ∈ l := by
  induction l with
  | nil => simp [orderedInsertDesc]
  | cons z zs ih =>
      by_cases hc : z.2 ≤ x.2
      · rw [orderedInsertDesc, if_pos hc]
        simp
      · rw [orderedInsertDesc, if_neg hc]
        simp only [List.mem_cons, ih]
        tauto

theorem length_sortTalliesDesc (l : List (ℕ × ℕ)) :
    (sortTalliesDesc l).length = l.length := by
  induction l with
  | nil => rfl
  | cons x xs ih =>
      rw [sortTalliesDesc]
      have hlen : ∀ (a : ℕ × ℕ) (m : List (ℕ × ℕ)),
          (orderedInsertDesc a m).length = m.length + 1 := by
        intro a m
        induction m with
        | nil => rfl
        | cons z zs ihm =>
            by_cases hc : z.2 ≤ a.2
            · rw [orderedInsertDesc, if_pos hc]; rfl
            · rw [orderedInsertDesc, if_neg hc]
              simp [ihm]
      rw [hlen, ih, List.length_cons]

theorem mem_sortTalliesDesc (l : List (ℕ × ℕ)) (y : ℕ × ℕ) :
    y ∈ sortTalliesDesc l ↔ y ∈ l := by
  induction l with
  | nil => simp [sortTalliesDesc]
  | cons x xs ih =>
      rw [sortTalliesDesc, mem_orderedInsertDesc]
      simp [ih]

theorem sortTalliesDesc_head_max (l : List (ℕ × ℕ)) :
    ∀ h t, sortTalliesDesc l = h :: t → ∀ y ∈ l, y.2 ≤ h.2 := by
  induction l with
  | nil => intro h t hs; cases hs
  | cons x xs ih =>
      intro h t hs
      rw [sortTalliesDesc] at hs
      cases hsx : sortTalliesDesc xs with
      | nil =>
          rw [hsx] at hs
          have hxs : xs = [] := by
            have := length_sortTalliesDesc xs
            rw [hsx] at this
            exact List.length_eq_zero.mp this.symm
          subst hxs
          rw [show orderedInsertDesc x [] = [x] from rfl] at hs
          obtain ⟨hh, -⟩ := List.cons.inj hs
          intro y hy
          simp only [List.mem_singleton] at hy
          rw [hy, ← hh]
      | cons z zs =>
          rw [hsx] at hs
          have hzs : ∀ y ∈ xs, y.2 ≤ z.2 := ih z zs hsx
          by_cases hc : z.2 ≤ x.2
          · rw [orderedInsertDesc, if_pos hc] at hs
            obtain ⟨hh, -⟩ := List.cons.inj hs
            intro y hy
            rcases List.mem_cons.mp hy with hy | hy
            · rw [hy, ← hh]
            · exact le_trans (le_trans (hzs y hy) hc) (le_of_eq (by rw [hh]))
          · rw [orderedInsertDesc, if_neg hc] at hs
            obtain ⟨hh, -⟩ := List.cons.inj hs
            intro y hy
            rcases List.mem_cons.mp hy with hy | hy
            · rw [hy, ← hh]
              exact le_of_lt (lt_of_not_le hc)
            · rw [← hh]
              exact hzs y hy

theorem ceil_div_char (nq k : ℕ) (hk : 0 < k) :
    nq ≤ (nq + k - 1) / k * k ∧ (nq + k - 1) / k * k < nq + k := by
  have heq := Nat.div_add_mod (nq + k - 1) k
  have hmod : (nq + k - 1) % k < k := Nat.mod_lt _ hk
  rw [Nat.mul_comm] at heq
  omega

theorem topoSorted_head (couplers : List (ℕ × ℕ)) (hne : couplers ≠ []) :
    ∃ L rest, topoSorted couplers = (L, (topoDeltas couplers).count L) :: rest ∧
      L ∈ topoDeltas couplers ∧
      ∀ d ∈ topoDeltas couplers,
        (topoDeltas couplers).count d ≤ (topoDeltas couplers).count L := by
  have hdne : topoDeltas couplers ≠ [] := by
    cases couplers with
    | nil => exact absurd rfl hne
    | cons c cs => simp [topoDeltas]
  have hune : uniqueKeysAux [] (topoDeltas couplers) ≠ [] := by
    cases hdel : topoDeltas couplers with
    | nil => exact absurd hdel hdne
    | cons a as => simp [uniqueKeysAux]
  have htne : tallies (topoDeltas couplers) ≠ [] := by
    rw [tallies]
    intro h
    exact hune (List.map_eq_nil_iff.mp h)
  cases hs : topoSorted couplers with
  | nil =>
      exfalso
      apply htne
      have := length_sortTalliesDesc (tallies (topoDeltas couplers))
      rw [← topoSorted, hs] at this
      exact List.length_eq_zero.mp this.symm
  | cons hd rest =>
      have hmem : hd ∈ tallies (topoDeltas couplers) := by
        refine (mem_sortTalliesDesc _ _).mp ?_
        rw [← topoSorted, hs]
        exact List.mem_cons_self _ _
      obtain ⟨d, hdu, hdd⟩ := List.mem_map.mp (by rw [tallies] at hmem; exact hmem)
      have hhd2 : hd.2 = (topoDeltas couplers).count d := by rw [← hdd]
      refine ⟨d, rest, ?_, ((mem_uniqueKeysAux _ _ _).mp hdu).1, ?_⟩
      · rw [hdd]
      · intro d' hd'
        have hu' : d' ∈ uniqueKeysAux [] (topoDeltas couplers) :=
          (mem_uniqueKeysAux _ _ _).mpr ⟨hd', by simp⟩
        have ht' : (d', (topoDeltas couplers).count d') ∈ tallies (topoDeltas couplers) := by
          rw [tallies]
          exact List.mem_map.mpr ⟨d', hu', rfl⟩
        have hle := sortTalliesDesc_head_max (tallies (topoDeltas couplers)) hd rest
          (by rw [← topoSorted]; exact hs) _ ht'
        rw [hhd2] at hle
        exact hle

/-- C4 (amended): for every non-empty coupler list whose pairs have
distinct endpoints, `chimera_topology` fails with `NonChimera` exactly when
the nominal qubit count is absent; otherwise it succeeds with L a most
frequent absolute index-distance (the head of the stably tally-sorted
distance histogram), M equal to `stride / (2L)` for the first distance
strictly greater than 2L among the remaining distances in descending
frequency order (1 when there is none), and N the ceiling of
`nominal / (2·L·M)`.  (Without the distinct-endpoint restriction the code
can also fail with an uncaught `ZeroDivisionError`; see
`chimera_topology_selfloop_cex`.) -/
theorem chimera_topology_spec (couplers : List (ℕ × ℕ)) (hne : couplers ≠ [])
    (hdistinct : ∀ c ∈ couplers, c.1 ≠ c.2) :
    chimera_topology none couplers = .error .nonChimera ∧
    ∀ nq : ℕ, ∃ L M N rest,
      topoSorted couplers = (L, (topoDeltas couplers).count L) :: rest ∧
      chimera_topology (some nq) couplers = .ok (L, M, N) ∧
      L ∈ topoDeltas couplers ∧
      (∀ d ∈ topoDeltas couplers,
        (topoDeltas couplers).count d ≤ (topoDeltas couplers).count L) ∧
      M = (match rest.find? (fun dt => decide (2 * L < dt.1)) with
           | some dt => dt.1 / (2 * L)
           | none => 1) ∧
      nq ≤ N * (2 * L * M) ∧ N * (2 * L * M) < nq + 2 * L * M := by
  refine ⟨rfl, fun nq => ?_⟩
  obtain ⟨L, rest, hs, hLmem, hmax⟩ := topoSorted_head couplers hne
  have hL : L ≠ 0 := by
    obtain ⟨c, hc, hdc⟩ := List.mem_map.mp hLmem
    have hcc := hdistinct c hc
    rw [← hdc]
    unfold deltaOf
    omega
  cases hf : rest.find? (fun dt => decide (2 * L < dt.1)) with
  | some dt =>
      have hdt : 2 * L < dt.1 := by
        have := List.find?_some hf
        simpa using this
      have hM1 : 1 ≤ dt.1 / (2 * L) :=
        (Nat.one_le_div_iff (by omega)).mpr (le_of_lt hdt)
      have hk : 0 < 2 * L * (dt.1 / (2 * L)) := by positivity
      refine ⟨L, dt.1 / (2 * L),
        (nq + 2 * L * (dt.1 / (2 * L)) - 1) / (2 * L * (dt.1 / (2 * L))), rest,
        hs, ?_, hLmem, hmax, by rw [hf], ?_, ?_⟩
      · simp only [chimera_topology, hs, hf]
        rw [if_neg (by omega)]
      · exact (ceil_div_char nq _ hk).1
      · exact (ceil_div_char nq _ hk).2
  | none =>
      have hk : 0 < 2 * L * 1 := by omega
      refine ⟨L, 1, (nq + 2 * L * 1 - 1) / (2 * L * 1), rest,
        hs, ?_, hLmem, hmax, by rw [hf], ?_, ?_⟩
      · simp only [chimera_topology, hs, hf]
        rw [if_neg (by omega)]
      · exact (ceil_div_char nq _ hk).1
      · exact (ceil_div_char nq _ hk).2

/-- C4 witness: `chimera_topology_spec` instantiated on the two-qubit
hardware graph with a doubled coupler, plus the concrete success value. -/
theorem chimera_topology_spec_witness :
    chimera_topology none [(0, 1), (0, 1)] = .error .nonChimera ∧
    chimera_topology (some 4) [(0, 1), (0, 1)] = .ok (1, 1, 2) := by
  refine ⟨(chimera_topology_spec [(0, 1), (0, 1)] (by decide) (by decide)).1, by rfl⟩

/-- C4 counterexample: on the non-empty coupler list [(2, 2)] (a
degenerate self-loop coupler) with a nominal qubit count present, the most
frequent distance is L = 0 and the code divides by 2·L = 0, raising an
uncaught `ZeroDivisionError` rather than succeeding or raising
`NonChimera`: a missing nominal qubit count is not the only failure case
for a non-empty coupler list. -/
theorem chimera_topology_selfloop_cex :
    chimera_topology (some 8) [(2, 2)] = .error .zeroDivision ∧
    TopErr.zeroDivision ≠ TopErr.nonChimera := ⟨by rfl, by decide⟩

/-- C10 (amended): for a non-empty coupler list of distinct-endpoint pairs
whose distances contain none strictly greater than 2·L (L the most
frequent distance, i.e. the head of the sorted tally list), and with a
nominal qubit count present, `chimera_topology` silently succeeds with
M = 1 — the no-stride-found case is not an error.  (On a degenerate
all-self-loop coupler list the claim's premise also holds, with L = 0, but
the code fails with a `ZeroDivisionError`; see
`chimera_topology_M_default_cex`.) -/
theorem chimera_topology_M_default (couplers : List (ℕ × ℕ)) (nq L c : ℕ)
    (rest : List (ℕ × ℕ))
    (hdistinct : ∀ p ∈ couplers, p.1 ≠ p.2)
    (hsort : topoSorted couplers = (L, c) :: rest)
    (hsmall : ∀ d ∈ topoDeltas couplers, d ≤ 2 * L) :
    chimera_topology (some nq) couplers = .ok (L, 1, (nq + 2 * L * 1 - 1) / (2 * L * 1)) := by
  have hL : L ≠ 0 := by
    have hLmem : L ∈ topoDeltas couplers := by
      have hmem : (L, c) ∈ tallies (topoDeltas couplers) := by
        refine (mem_sortTalliesDesc _ _).mp ?_
        rw [← topoSorted, hsort]
        exact List.mem_cons_self _ _
      obtain ⟨d, hdu, hdd⟩ := List.mem_map.mp (by rw [tallies] at hmem; exact hmem)
      have : d = L := by
        have := congrArg Prod.fst hdd
        simpa using this
      rw [← this]
      exact ((mem_uniqueKeysAux _ _ _).mp hdu).1
    obtain ⟨p, hp, hdp⟩ := List.mem_map.mp hLmem
    have hpp := hdistinct p hp
    rw [← hdp]
    unfold deltaOf
    omega
  have hfind : rest.find? (fun dt => decide (2 * L < dt.1)) = none := by
    rw [List.find?_eq_none]
    intro dt hdt
    have hmem : dt ∈ tallies (topoDeltas couplers) := by
      refine (mem_sortTalliesDesc _ _).mp ?_
      rw [← topoSorted, hsort]
      exact List.mem_cons_of_mem _ hdt
    obtain ⟨d, hdu, hdd⟩ := List.mem_map.mp (by rw [tallies] at hmem; exact hmem)
    have hdm : d ∈ topoDeltas couplers := ((mem_uniqueKeysAux _ _ _).mp hdu).1
    have hdle := hsmall d hdm
    have hdt1 : dt.1 = d := by
      have := congrArg Prod.fst hdd
      simpa using this.symm
    simp only [hdt1, decide_eq_true_eq]
    omega
  simp only [chimera_topology, hsort, hfind]
  rw [if_neg (by omega)]

/-- C10 witness: a graph whose distances are {1, 2} with L = 1, so no
distance exceeds 2·L; `chimera_topology_M_default` yields M = 1. -/
theorem chimera_topology_M_default_witness :
    chimera_topology (some 4) [(3, 4), (3, 4), (3, 5)] =
      .ok (1, 1, (4 + 2 * 1 * 1 - 1) / (2 * 1 * 1)) :=
  chimera_topology_M_default [(3, 4), (3, 4), (3, 5)] 4 1 2 [(2, 1)]
    (by decide) (by decide) (by decide)

/-- C10 counterexample: on the coupler list [(5, 5)] every distance is
0 ≤ 2·L (with L = 0 the most frequent distance), so the claim's premise
holds, yet the code raises an uncaught `ZeroDivisionError` instead of
returning M = 1. -/
theorem chimera_topology_M_default_cex :
    (∀ d ∈ topoDeltas [(5, 5)], d ≤ 2 * 0) ∧
    topoSorted [(5, 5)] = [(0, 1)] ∧
    chimera_topology (some 4) [(5, 5)] = .error .zeroDivision :=
  ⟨by decide, by rfl, by rfl⟩

/-! ### EmbeddabilityAnalyzer (`maybe_embeddable`, utils.py) -/

theorem dictInsert_ne_nil (d : List (α × β)) (k : α) (v : β) : dictInsert d k v ≠ [] := by
  cases d with
  | nil => simp [dictInsert]
  | cons e rest => by_cases he : e.1 = k <;> simp [dictInsert, he]

/-- One update of the neighbor map: `nodes[a].add(b)` with the `KeyError`
fallback `nodes[a] = set([b])`. -/
def addNeighbor (d : List (ℕ × List ℕ)) (a b : ℕ) : List (ℕ × List ℕ) :=
  match lookupKV d a with
  | some s => dictInsert d a (if b ∈ s then s else s ++ [b])
  | none => d ++ [(a, [b])]

/-- Python `edges_to_neighbor_list(pairs)`: a mapping from each node to
every node it touches. -/
def edges_to_neighbor_list (pairs : List (ℕ × ℕ)) : List (ℕ × List ℕ) :=
  pairs.foldl (fun acc p => addNeighbor (addNeighbor acc p.1 p.2) p.2 p.1) []

/-- Python `math.ceil(float(a)/float(b))` for natural a and positive b. -/
def ceilNat (a b : ℕ) : ℕ := (a + b - 1) / b

/-- The structured report returned by `maybe_embeddable`. -/
structure EmbedInfo where
  embed : Bool
  extras : ℕ
  nodes_needed : ℕ
  nodes_avail : ℕ
  edges_needed : ℕ
  edges_avail : ℕ
  hist : List (ℕ × ℕ)
deriving DecidableEq

/-- Stable insertion into a pair list sorted ascending by first component
(Python `sorted` on dict items with distinct keys). -/
def orderedInsertAsc (x : ℕ × ℕ) : List (ℕ × ℕ) → List (ℕ × ℕ)
  | [] => [x]
  | y :: ys => if x.1 ≤ y.1 then x :: y :: ys else y :: orderedInsertAsc x ys

/-- Ascending sort of the degree histogram, `sorted(hist.items())`. -/
def sortPairsAsc : List (ℕ × ℕ) → List (ℕ × ℕ)
  | [] => []
  | x :: xs => orderedInsertAsc x (sortPairsAsc xs)

/-- Python `maybe_embeddable(edges, adj)`: the degree-based embeddability
pre-check.  `none` models the uncaught `ValueError` raised by `max([])`
when the hardware adjacency list is empty. -/
def maybe_embeddable (edges adj : List (ℕ × ℕ)) : Option EmbedInfo :=
  let graph_needed := edges_to_neighbor_list edges
  let num_edges_needed := edges.length
  let num_nodes_needed := graph_needed.length
  let graph_avail := edges_to_neighbor_list adj
  let num_edges_avail := adj.length
  let num_nodes_avail := graph_avail.length
  match graph_avail.map (fun p => p.2.length) with
  | [] => none
  | d0 :: ds =>
      let max_degree_avail := ds.foldl max d0
      let extras := graph_needed.foldl
        (fun acc p =>
          if max_degree_avail < p.2.length then
            acc + (ceilNat p.2.length max_degree_avail - 1)
          else acc) 0
      let embed1 := if num_nodes_avail < num_nodes_needed + extras then false else true
      let embed2 := if num_edges_avail < num_edges_needed + extras then false else embed1
      let hist := sortPairsAsc (tallies (graph_needed.map fun p => p.2.length))
      some ⟨embed2, extras, num_nodes_needed, num_nodes_avail,
            num_edges_needed, num_edges_avail, hist⟩

theorem addNeighbor_ne_nil (d : List (ℕ × List ℕ)) (a b : ℕ) : addNeighbor d a b ≠ [] := by
  unfold addNeighbor
  cases hl : lookupKV d a with
  | none => simp
  | some s => exact dictInsert_ne_nil d a _

theorem edges_to_neighbor_list_ne_nil (pairs : List (ℕ × ℕ)) (h : pairs ≠ []) :
    edges_to_neighbor_list pairs ≠ [] := by
  rw [edges_to_neighbor_list]
  have haux : ∀ (l : List (ℕ × ℕ)) (acc : List (ℕ × List ℕ)), acc ≠ [] →
      l.foldl (fun acc p => addNeighbor (addNeighbor acc p.1 p.2) p.2 p.1) acc ≠ [] := by
    intro l
    induction l with
    | nil => intro acc hacc; exact hacc
    | cons e rest ih =>
        intro acc hacc
        rw [List.foldl_cons]
        exact ih _ (addNeighbor_ne_nil _ _ _)
  cases pairs with
  | nil => exact absurd rfl h
  | cons e rest =>
      rw [List.foldl_cons]
      exact haux rest _ (addNeighbor_ne_nil _ _ _)

theorem init_le_foldl_max (l : List ℕ) (a : ℕ) : a ≤ l.foldl max a := by
  induction l generalizing a with
  | nil => exact le_refl a
  | cons y ys ih => exact le_trans (le_max_left a y) (ih (max a y))

theorem le_foldl_max_of_mem (l : List ℕ) (a x : ℕ) (hx : x ∈ l) : x ≤ l.foldl max a := by
  induction l generalizing a with
  | nil => cases hx
  | cons y ys ih =>
      rw [List.foldl_cons]
      rcases List.mem_cons.mp hx with h | h
      · exact le_trans (h ▸ le_max_right a y) (init_le_foldl_max ys (max a y))
      · exact ih _ h

theorem foldl_extras_sum (g : List (ℕ × List ℕ)) (maxd init : ℕ) :
    g.foldl
        (fun acc p =>
          if maxd < p.2.length then acc + (ceilNat p.2.length maxd - 1) else acc) init =
      init +
        (g.map fun p =>
          if maxd < p.2.length then ceilNat p.2.length maxd - 1 else 0).sum := by
  induction g generalizing init with
  | nil => simp
  | cons p rest ih =>
      rw [List.foldl_cons, ih, List.map_cons, List.sum_cons]
      by_cases hp : maxd < p.2.length
      · rw [if_pos hp, if_pos hp]
        omega
      · rw [if_neg hp, if_neg hp]
        omega

theorem foldl_extras_zero (g : List (ℕ × List ℕ)) (maxd : ℕ)
    (h : ∀ p ∈ g, ¬ maxd < p.2.length) :
    g.foldl
        (fun acc p =>
          if maxd < p.2.length then acc + (ceilNat p.2.length maxd - 1) else acc) 0 = 0 := by
  rw [foldl_extras_sum]
  have hz : (g.map fun p =>
      if maxd < p.2.length then ceilNat p.2.length maxd - 1 else 0).sum = 0 := by
    apply List.sum_eq_zero
    intro x hx
    obtain ⟨p, hp, hxe⟩ := List.mem_map.mp hx
    rw [← hxe, if_neg (h p hp)]
  omega

/-- C9 (amended): whenever `maybe_embeddable` produces a report (which it
does exactly when the hardware adjacency is non-empty), the report's
`extras` equals the sum of `ceil(degree / maxAvailableDegree) - 1` over
exactly those logical nodes whose degree exceeds the maximum available
degree, and `embed = false` holds iff needed nodes + extras exceed
available nodes or needed edges + extras exceed available edges; on a
logical edge list identical to the non-empty hardware edge list the report
has `embed = true` and `extras = 0`.  (On an empty hardware edge list the
code raises an uncaught `ValueError` from `max([])` instead of reporting;
see `maybe_embeddable_empty_cex`.) -/
theorem maybe_embeddable_spec :
    (∀ (edges adj : List (ℕ × ℕ)) (r : EmbedInfo) (d0 : ℕ) (ds : List ℕ),
      maybe_embeddable edges adj = some r →
      ((edges_to_neighbor_list adj).map fun p => p.2.length) = d0 :: ds →
      r.extras = ((edges_to_neighbor_list edges).map fun p =>
          if ds.foldl max d0 < p.2.length then
            ceilNat p.2.length (ds.foldl max d0) - 1
          else 0).sum ∧
      (r.embed = false ↔
        r.nodes_avail < r.nodes_needed + r.extras ∨
        r.edges_avail < r.edges_needed + r.extras)) ∧
    (∀ edges : List (ℕ × ℕ), edges ≠ [] →
      (maybe_embeddable edges edges).map (fun r => (r.embed, r.extras)) = some (true, 0)) := by
  constructor
  · intro edges adj r d0 ds h hmap
    rw [maybe_embeddable] at h
    rw [hmap] at h
    simp only [Option.some.injEq] at h
    subst h
    refine ⟨?_, ?_⟩
    · dsimp only
      rw [foldl_extras_sum]
      omega
    · dsimp only
      by_cases h1 : (edges_to_neighbor_list adj).length <
          (edges_to_neighbor_list edges).length +
            (edges_to_neighbor_list edges).foldl
              (fun acc p =>
                if ds.foldl max d0 < p.2.length then
                  acc + (ceilNat p.2.length (ds.foldl max d0) - 1)
                else acc) 0
      · by_cases h2 : adj.length < edges.length +
            (edges_to_neighbor_list edges).foldl
              (fun acc p =>
                if ds.foldl max d0 < p.2.length then
                  acc + (ceilNat p.2.length (ds.foldl max d0) - 1)
                else acc) 0
        · simp [h1, h2]
        · simp [h1, h2]
      · by_cases h2 : adj.length < edges.length +
            (edges_to_neighbor_list edges).foldl
              (fun acc p =>
                if ds.foldl max d0 < p.2.length then
                  acc + (ceilNat p.2.length (ds.foldl max d0) - 1)
                else acc) 0
        · simp [h1, h2]
        · simp [h1, h2]
  · intro edges hne
    have hg : edges_to_neighbor_list edges ≠ [] := edges_to_neighbor_list_ne_nil edges hne
    cases hm : (edges_to_neighbor_list edges).map (fun p => p.2.length) with
    | nil => exact absurd (List.map_eq_nil_iff.mp hm) hg
    | cons d0 ds =>
        have hdeg : ∀ p ∈ edges_to_neighbor_list edges,
            ¬ ds.foldl max d0 < p.2.length := by
          intro p hp
          have hmem : p.2.length ∈ d0 :: ds := by
            rw [← hm]
            exact List.mem_map_of_mem _ hp
          rcases List.mem_cons.mp hmem with h | h
          · have := init_le_foldl_max ds d0
            omega
          · have := le_foldl_max_of_mem ds d0 _ h
            omega
        have hext := foldl_extras_zero (edges_to_neighbor_list edges) (ds.foldl max d0) hdeg
        rw [maybe_embeddable, hm]
        dsimp only
        rw [hext]
        rw [if_neg (by omega), if_neg (by omega)]
        rfl

/-- C9 witness: `maybe_embeddable_spec` applied to the identical two-edge
path graph. -/
theorem maybe_embeddable_spec_witness :
    (maybe_embeddable [(0, 1), (1, 2)] [(0, 1), (1, 2)]).map
      (fun r => (r.embed, r.extras)) = some (true, 0) :=
  maybe_embeddable_spec.2 [(0, 1), (1, 2)] (by decide)

/-- C9 counterexample: with the logical edge list identical to the (empty)
hardware edge list, the code does not report `embeddable = true`; it fails
with an uncaught `ValueError` from `max([])`, so the claim's unconditional
reading is false on the empty hardware graph. -/
theorem maybe_embeddable_empty_cex :
    maybe_embeddable [] [] = none ∧
    ¬ ∃ r : EmbedInfo, maybe_embeddable [] [] = some r ∧ r.embed = true := by
  refine ⟨rfl, ?_⟩
  rintro ⟨r, hr, -⟩
  rw [show maybe_embeddable [] [] = none from rfl] at hr
  cases hr

/-! ### SymbolTable (`SymbolMapping`, utils.py) -/

/-- The symbol table: forward map `sym2num`, reverse map `num2syms` (its
sets modelled as duplicate-free lists) and the allocation counter. -/
structure SymbolMapping (α : Type) where
  sym2num : List (α × ℕ)
  num2syms : List (ℕ × List α)
  next_sym_num : ℕ
deriving DecidableEq

/-- A freshly constructed `SymbolMapping()`. -/
def emptyMapping (α : Type) : SymbolMapping α := ⟨[], [], 0⟩

/-- Body of `new_symbol` once the already-defined check has passed. -/
def new_symbol_raw (st : SymbolMapping α) (s : α) : SymbolMapping α × ℕ :=
  (⟨dictInsert st.sym2num s st.next_sym_num,
    dictInsert st.num2syms st.next_sym_num [s],
    st.next_sym_num + 1⟩, st.next_sym_num)

/-- Python `new_symbol(sym)`: assign the next available number to a
symbol; `none` models the internal-error exception raised when the symbol
is already defined. -/
def new_symbol (st : SymbolMapping α) (s : α) : Option (SymbolMapping α × ℕ) :=
  if (lookupKV st.sym2num s).isSome then none else some (new_symbol_raw st s)

/-- Python `to_number(sym)` (`none` models the `KeyError`). -/
def to_number (st : SymbolMapping α) (s : α) : Option ℕ := lookupKV st.sym2num s

/-- Python `to_symbols(num)` (`none` models the `KeyError`). -/
def to_symbols (st : SymbolMapping α) (n : ℕ) : Option (List α) := lookupKV st.num2syms n

/-- Python `set.update`: append the missing elements of `t` to `s`. -/
def setUnion (s t : List α) : List α := s ++ t.filter (fun x => decide (x ∉ s))

/-- Regeneration of `sym2num` from `num2syms` at the end of `alias`. -/
def rebuildSym2num (num2syms : List (ℕ × List α)) : List (α × ℕ) :=
  num2syms.foldl (fun acc p => p.2.foldl (fun acc2 s => dictInsert acc2 s p.1) acc) []

/-- The merge step of `alias`: move all symbols of the larger number onto
the smaller one, delete the larger entry and regenerate `sym2num`.  The
`getD []` models the direct indexing `self.num2syms[...]`, whose keys are
always present when `alias` reaches this step. -/
def mergeNums (st : SymbolMapping α) (num1 num2 : ℕ) : SymbolMapping α :=
  let new_num := min num1 num2
  let old_num := max num1 num2
  let oldSet := (lookupKV st.num2syms old_num).getD []
  let newSet := (lookupKV st.num2syms new_num).getD []
  let n2s := dictRemove (dictInsert st.num2syms new_num (setUnion newSet oldSet)) old_num
  ⟨rebuildSym2num n2s, n2s, st.next_sym_num⟩

/-- Python `alias(sym1, sym2)`: make two symbols point to the same number.
The option result is `none` when `abend` is reached (both symbols already
defined at different numbers); the state component is the table at that
point, which in the `abend` case is the unmodified input table.  The
`new_symbol` calls are guarded by the failed lookups, so the raw body is
used. -/
def aliasSyms (st : SymbolMapping α) (sym1 sym2 : α) : SymbolMapping α × Option ℕ :=
  let r1 : SymbolMapping α × ℕ × ℕ :=
    match lookupKV st.sym2num sym1 with
    | some n => (st, n, 0)
    | none => ((new_symbol_raw st sym1).1, (new_symbol_raw st sym1).2, 1)
  let st1 := r1.1
  let num1 := r1.2.1
  let r2 : SymbolMapping α × ℕ × ℕ :=
    match lookupKV st1.sym2num sym2 with
    | some n => (st1, n, 0)
    | none => ((new_symbol_raw st1 sym2).1, (new_symbol_raw st1 sym2).2, 1)
  let st2 := r2.1
  let num2 := r2.2.1
  let n_new_defs := r1.2.2 + r2.2.2
  if num1 = num2 then (st2, some num1)
  else if n_new_defs = 0 then (st2, none)
  else (mergeNums st2 num1 num2, some (min num1 num2))

/-- C5: if both symbols are already defined and bound to different
numbers, `alias` aborts fatally (`abend`) and leaves the table — forward
map, reverse map and next-index counter — exactly as it was. -/
theorem alias_both_defined_atomic (st : SymbolMapping α) (s1 s2 : α) (n1 n2 : ℕ)
    (h1 : to_number st s1 = some n1) (h2 : to_number st s2 = some n2)
    (hne : n1 ≠ n2) :
    aliasSyms st s1 s2 = (st, none) := by
  rw [to_number] at h1 h2
  simp only [aliasSyms, h1, h2]
  rw [if_neg hne]
  simp

/-- C5 witness: aliasing two independently defined symbols fails and
returns the untouched table. -/
theorem alias_both_defined_atomic_witness :
    aliasSyms (⟨[("a", 0), ("b", 1)], [(0, ["a"]), (1, ["b"])], 2⟩ : SymbolMapping String)
      "a" "b" = (⟨[("a", 0), ("b", 1)], [(0, ["a"]), (1, ["b"])], 2⟩, none) :=
  alias_both_defined_atomic _ "a" "b" 0 1 (by rfl) (by rfl) (by decide)

/-- Python `overwrite_with(sym2num)`: replace the table's contents with a
given symbol-to-number map, rebuilding `num2syms` and the counter. -/
def overwrite_with (s2n : List (α × ℕ)) : SymbolMapping α :=
  let n2s := s2n.foldl
    (fun acc p =>
      match lookupKV acc p.2 with
      | some ss => dictInsert acc p.2 (if p.1 ∈ ss then ss else ss ++ [p.1])
      | none => acc ++ [(p.2, [p.1])]) []
  let next := match n2s.map Prod.fst with
    | [] => 0
    | k :: ks => ks.foldl max k + 1
  ⟨s2n, n2s, next⟩

/-- The first loop of `replace_all`: look up each old symbol, remember its
number and delete it from the working copy of `sym2num`; `none` models the
`abend` on a symbol missing from the copy. -/
def collectNums (s2n : List (α × ℕ)) : List α → Option (List (α × ℕ) × List ℕ)
  | [] => some (s2n, [])
  | s :: rest =>
      match lookupKV s2n s with
      | none => none
      | some n => (collectNums (dictRemove s2n s) rest).map fun pr => (pr.1, n :: pr.2)

/-- Python `replace_all(before_syms, after_syms)`: positional rename via a
working copy and `overwrite_with`.  The option is `none` on `abend`, with
the state component the (unchanged) table at that point. -/
def replace_all (st : SymbolMapping α) (before after : List α) :
    SymbolMapping α × Option Unit :=
  match collectNums st.sym2num before with
  | none => (st, none)
  | some (s2n1, nums) =>
      (overwrite_with ((after.zip nums).foldl (fun acc p => dictInsert acc p.1 p.2) s2n1),
        some ())

theorem to_number_overwrite (m : List (α × ℕ)) (s : α) :
    to_number (overwrite_with m) s = lookupKV m s := rfl

theorem collectNums_none (before : List α) : ∀ s2n : List (α × ℕ),
    (∃ s ∈ before, lookupKV s2n s = none) → collectNums s2n before = none := by
  induction before with
  | nil =>
      intro s2n h
      obtain ⟨s, hs, -⟩ := h
      cases hs
  | cons b rest ih =>
      intro s2n h
      obtain ⟨s, hs, hnone⟩ := h
      cases hl : lookupKV s2n b with
      | none => rw [collectNums, hl]
      | some n =>
          rw [collectNums, hl]
          rcases List.mem_cons.mp hs with hsb | hs'
          · rw [hsb] at hnone
            rw [hnone] at hl
            cases hl
          · have hrem : lookupKV (dictRemove s2n b) s = none := by
              rw [lookupKV_dictRemove]
              by_cases hsb : s = b
              · simp [hsb]
              · simp [hsb, hnone]
            rw [ih _ ⟨s, hs', hrem⟩]
            rfl

theorem collectNums_sound (before : List α) : ∀ s2n : List (α × ℕ),
    before.Nodup → (∀ s ∈ before, (lookupKV s2n s).isSome) →
    ∃ d' nums, collectNums s2n before = some (d', nums) ∧
      nums.length = before.length ∧
      ∀ (i : ℕ) (s : α), before[i]? = some s → nums[i]? = lookupKV s2n s := by
  induction before with
  | nil =>
      intro s2n _ _
      exact ⟨s2n, [], rfl, rfl, fun i s h => by cases h⟩
  | cons b rest ih =>
      intro s2n hnd hdef
      have hb : (lookupKV s2n b).isSome := hdef b (List.mem_cons_self _ _)
      cases hl : lookupKV s2n b with
      | none => rw [hl] at hb; cases hb
      | some n =>
          simp only [List.nodup_cons] at hnd
          have hdef' : ∀ s ∈ rest, (lookupKV (dictRemove s2n b) s).isSome := by
            intro s hs
            have hne : ¬ s = b := fun hc => hnd.1 (hc ▸ hs)
            rw [lookupKV_dictRemove, if_neg hne]
            exact hdef s (List.mem_cons_of_mem _ hs)
          obtain ⟨d', nums, hcn, hlen, hidx⟩ := ih (dictRemove s2n b) hnd.2 hdef'
          refine ⟨d', n :: nums, ?_, by simpa using hlen, ?_⟩
          · rw [collectNums, hl, hcn]
            rfl
          · intro i s hi
            cases i with
            | zero =>
                simp only [List.getElem?_cons_zero, Option.some.injEq] at hi
                rw [← hi, hl]
                simp
            | succ j =>
                simp only [List.getElem?_cons_succ] at hi ⊢
                rw [hidx j s hi]
                have hsmem : s ∈ rest := List.getElem?_mem hi
                have hne : ¬ s = b := fun hc => hnd.1 (hc ▸ hsmem)
                rw [lookupKV_dictRemove, if_neg hne]

theorem lookupKV_foldl_dictInsert_notmem (pairs : List (α × ℕ)) :
    ∀ (acc : List (α × ℕ)) (k : α), k ∉ pairs.map Prod.fst →
    lookupKV (pairs.foldl (fun a q => dictInsert a q.1 q.2) acc) k = lookupKV acc k := by
  induction pairs with
  | nil => intro acc k _; rfl
  | cons p rest ih =>
      intro acc k hk
      simp only [List.map_cons, List.mem_cons] at hk
      rw [List.foldl_cons, ih _ _ (fun hc => hk (Or.inr hc)),
        lookupKV_dictInsert, if_neg (fun hc => hk (Or.inl hc))]

theorem lookupKV_foldl_dictInsert_mem (pairs : List (α × ℕ)) :
    ∀ acc : List (α × ℕ), (pairs.map Prod.fst).Nodup →
    ∀ p ∈ pairs, lookupKV (pairs.foldl (fun a q => dictInsert a q.1 q.2) acc) p.1 = some p.2 := by
  induction pairs with
  | nil => intro acc _ p hp; cases hp
  | cons q rest ih =>
      intro acc hnd p hp
      simp only [List.map_cons, List.nodup_cons] at hnd
      rw [List.foldl_cons]
      rcases List.mem_cons.mp hp with hpq | hp'
      · rw [hpq]
        rw [lookupKV_foldl_dictInsert_notmem rest _ q.1 hnd.1,
          lookupKV_dictInsert, if_pos rfl]
      · exact ih _ hnd.2 p hp'

/-- C7: `replace_all` fails atomically — table unchanged — with the
rename-nonexistent `abend` whenever some old symbol is undefined; and on
duplicate-free old/new sequences of equal length whose old symbols are all
defined it renames positionally, the symbol at position i of `after`
receiving the index previously held by the symbol at position i of
`before`. -/
theorem replace_all_spec (st : SymbolMapping α) (before after : List α) :
    ((∃ s ∈ before, to_number st s = none) →
      replace_all st before after = (st, none)) ∧
    (before.Nodup → after.Nodup → before.length = after.length →
      (∀ s ∈ before, (to_number st s).isSome) →
      ∀ (i : ℕ) (s t : α), before[i]? = some s → after[i]? = some t →
        to_number (replace_all st before after).1 t = to_number st s ∧
        (replace_all st before after).2 = some ()) := by
  constructor
  · intro h
    have := collectNums_none before st.sym2num (by
      obtain ⟨s, hs, hn⟩ := h
      exact ⟨s, hs, hn⟩)
    rw [replace_all, this]
  · intro hndb hnda hlen hdef i s t hi ht
    obtain ⟨d', nums, hcn, hlenn, hidx⟩ :=
      collectNums_sound before st.sym2num hndb hdef
    rw [replace_all, hcn]
    have hzlen : after.length ≤ nums.length := by omega
    have hmap : (after.zip nums).map Prod.fst = after := List.map_fst_zip after nums hzlen
    have hnum : nums[i]? = some ((lookupKV st.sym2num s).get (hdef s (by
        exact List.getElem?_mem hi))) := by
      rw [hidx i s hi]
      exact (Option.some_get _).symm
    have hpair : (after.zip nums)[i]? =
        some (t, (lookupKV st.sym2num s).get (hdef s (List.getElem?_mem hi))) := by
      rw [List.getElem?_zip_eq_some]
      exact ⟨ht, hnum⟩
    have hmem : (t, (lookupKV st.sym2num s).get (hdef s (List.getElem?_mem hi))) ∈
        after.zip nums := List.getElem?_mem hpair
    constructor
    · rw [to_number_overwrite]
      have := lookupKV_foldl_dictInsert_mem (after.zip nums) d'
        (by rw [hmap]; exact hnda) _ hmem
      rw [this, to_number, Option.some_get]
    · rfl

/-- C7 witness: renaming "x" to "z" preserves index 0; renaming the
undefined "q" aborts with the table unchanged. -/
theorem replace_all_spec_witness :
    replace_all (⟨[("x", 0), ("y", 1)], [(0, ["x"]), (1, ["y"])], 2⟩ : SymbolMapping String)
      ["q"] ["z"] = (⟨[("x", 0), ("y", 1)], [(0, ["x"]), (1, ["y"])], 2⟩, none) ∧
    to_number (replace_all
      (⟨[("x", 0), ("y", 1)], [(0, ["x"]), (1, ["y"])], 2⟩ : SymbolMapping String)
      ["x"] ["z"]).1 "z" = some 0 := by
  constructor
  · exact (replace_all_spec _ ["q"] ["z"]).1 ⟨"q", by simp, rfl⟩
  · have h := (replace_all_spec
      (⟨[("x", 0), ("y", 1)], [(0, ["x"]), (1, ["y"])], 2⟩ : SymbolMapping String)
      ["x"] ["z"]).2 (by simp) (by simp) rfl (by simp [to_number, lookupKV])
      0 "x" "z" rfl rfl
    rw [h.1]
    rfl

/-! ### Deferred-prefix resolution (`apply_prefix` / `symbol_to_number`, utils.py) -/

/-- Python `s.startswith(pat)` on character lists. -/
def isPrefixL : List Char → List Char → Bool
  | [], _ => true
  | _ :: _, [] => false
  | a :: ps, b :: ss => decide (a = b) && isPrefixL ps ss

/-- Python `pat in s` on character lists: `pat` occurs at some position. -/
def containsL (pat : List Char) : List Char → Bool
  | [] => isPrefixL pat []
  | c :: rest => isPrefixL pat (c :: rest) || containsL pat rest

/-- The deferred-prefix marker "!next.". -/
def markerL : List Char := ['!', 'n', 'e', 'x', 't', '.']

/-- Python `s.replace(pat, rep)` — leftmost, non-overlapping, all
occurrences — with an explicit fuel bounded by the length of `s`. -/
def replaceLAux (pat rep : List Char) : ℕ → List Char → List Char
  | 0, s => s
  | _ + 1, [] => []
  | fuel + 1, c :: rest =>
      if isPrefixL pat (c :: rest) = true ∧ ¬ pat = [] then
        rep ++ replaceLAux pat rep fuel ((c :: rest).drop pat.length)
      else c :: replaceLAux pat rep fuel rest

/-- Python `s.replace(pat, rep)` for non-empty `pat`. -/
def replaceL (pat rep s : List Char) : List Char := replaceLAux pat rep s.length s

/-- The marker-resolution tail of `apply_prefix`, applied to the already
prefixed symbol: raise `RemainingNextException` (`none`) when the marker
is present without a full prefix context, otherwise substitute. -/
def resolveMarker (sym1 : List Char) (pre nextPre : Option (List Char)) :
    Option (List Char) :=
  if containsL markerL sym1 = true then
    match pre, nextPre with
    | some p, some np => some (replaceL (p ++ markerL) np sym1)
    | _, _ => none
  else some sym1

/-- Python `apply_prefix(sym, prefix, next_prefix)`: apply a prefix to a
symbol name, replacing prefix-plus-"!next." by the next prefix; `none`
models the `RemainingNextException`. -/
def applyPrefixL (sym : List Char) (pre nextPre : Option (List Char)) :
    Option (List Char) :=
  resolveMarker
    (match pre with
     | some p => p ++ sym
     | none => sym) pre nextPre

/-- The lookup-or-allocate tail of `symbol_to_number` (`to_number` with
the `KeyError` fallback to `new_symbol`; the symbol is undefined in the
fallback branch, so the raw body is used). -/
def lookupOrNew (st : SymbolMapping α) (s : α) : SymbolMapping α × ℕ :=
  match lookupKV st.sym2num s with
  | some n => (st, n)
  | none => new_symbol_raw st s

/-- Python `symbol_to_number(sym, prefix, next_prefix)`: map a symbol to a
number after resolving the deferred marker, creating a new association if
necessary; `none` models the `RemainingNextException`. -/
def symbol_to_number (st : SymbolMapping (List Char)) (sym : List Char)
    (pre nextPre : Option (List Char)) : Option (SymbolMapping (List Char) × ℕ) :=
  if containsL markerL sym = true then
    match pre, nextPre with
    | some p, some np => some (lookupOrNew st (replaceL (p ++ markerL) np sym))
    | _, _ => none
  else some (lookupOrNew st sym)

theorem containsL_append_left (pat s p : List Char) (h : containsL pat s = true) :
    containsL pat (p ++ s) = true := by
  induction p with
  | nil => simpa using h
  | cons c cs ih =>
      rw [List.cons_append, containsL]
      simp [ih]

/-- C8: for every symbol containing the deferred marker "!next.", both
`apply_prefix` and `symbol_to_number` rewrite the symbol by substituting
the supplied next prefix for current-prefix-plus-marker before definition
or lookup, and they raise `RemainingNextException` exactly when the prefix
context (current prefix and next prefix) is not fully supplied. -/
theorem deferred_marker_spec (sym : List Char) (hm : containsL markerL sym = true) :
    (∀ pre nextPre : Option (List Char),
      (applyPrefixL sym pre nextPre = none ↔ pre = none ∨ nextPre = none)) ∧
    (∀ (st : SymbolMapping (List Char)) (pre nextPre : Option (List Char)),
      (symbol_to_number st sym pre nextPre = none ↔ pre = none ∨ nextPre = none)) ∧
    (∀ p np : List Char,
      applyPrefixL sym (some p) (some np) =
        some (replaceL (p ++ markerL) np (p ++ sym))) ∧
    (∀ (st : SymbolMapping (List Char)) (p np : List Char),
      symbol_to_number st sym (some p) (some np) =
        some (lookupOrNew st (replaceL (p ++ markerL) np sym))) := by
  have hm' : ∀ p : List Char, containsL markerL (p ++ sym) = true :=
    fun p => containsL_append_left _ _ p hm
  refine ⟨?_, ?_, ?_, ?_⟩
  · intro pre nextPre
    cases pre with
    | none => cases nextPre <;> simp [applyPrefixL, resolveMarker, hm]
    | some p =>
        cases nextPre with
        | none => simp [applyPrefixL, resolveMarker, hm' p]
        | some np => simp [applyPrefixL, resolveMarker, hm' p]
  · intro st pre nextPre
    cases pre <;> cases nextPre <;> simp [symbol_to_number, hm]
  · intro p np
    simp [applyPrefixL, resolveMarker, hm' p]
  · intro st p np
    simp [symbol_to_number, hm]

/-- C8 witness: the bare marker fails without context; with a supplied
prefix pair the marker is substituted before lookup. -/
theorem deferred_marker_spec_witness :
    applyPrefixL markerL none none = none ∧
    applyPrefixL (['a'] ++ markerL) (some ['p']) (some ['q']) =
      some (replaceL (['p'] ++ markerL) ['q'] (['p'] ++ (['a'] ++ markerL))) := by
  have h1 := deferred_marker_spec markerL (by decide)
  have h2 := deferred_marker_spec (['a'] ++ markerL) (by decide)
  exact ⟨(h1.1 none none).mpr (Or.inl rfl), h2.2.2.1 ['p'] ['q']⟩

/-! ### Alias transitivity (C6): invariants of define/alias sequences -/

theorem entry_eq_of_nodup_keys (d : List (α × β)) (hnd : (d.map Prod.fst).Nodup)
    (p q : α × β) (hp : p ∈ d) (hq : q ∈ d) (hk : p.1 = q.1) : p = q := by
  induction d with
  | nil => cases hp
  | cons e rest ih =>
      simp only [List.map_cons, List.nodup_cons] at hnd
      rcases List.mem_cons.mp hp with hp' | hp'
      · rcases List.mem_cons.mp hq with hq' | hq'
        · rw [hp', hq']
        · exfalso
          apply hnd.1
          refine List.mem_map.mpr ⟨q, hq', ?_⟩
          rw [← hk, hp']
      · rcases List.mem_cons.mp hq with hq' | hq'
        · exfalso
          apply hnd.1
          refine List.mem_map.mpr ⟨p, hp', ?_⟩
          rw [hk, hq']
        · exact ih hnd.2 hp' hq'

theorem lookupKV_of_mem_nodup (d : List (α × β)) (hnd : (d.map Prod.fst).Nodup)
    (k : α) (v : β) (hm : (k, v) ∈ d) : lookupKV d k = some v := by
  induction d with
  | nil => cases hm
  | cons e rest ih =>
      simp only [List.map_cons, List.nodup_cons] at hnd
      rcases List.mem_cons.mp hm with hm' | hm'
      · rw [← hm']
        simp [lookupKV]
      · rw [lookupKV_cons]
        have hne : ¬ e.1 = k := by
          intro hc
          apply hnd.1
          exact List.mem_map.mpr ⟨(k, v), hm', hc.symm⟩
        rw [if_neg hne]
        exact ih hnd.2 hm'

theorem mem_of_lookupKV (d : List (α × β)) (k : α) (v : β)
    (h : lookupKV d k = some v) : (k, v) ∈ d := by
  induction d with
  | nil => cases h
  | cons e rest ih =>
      rw [lookupKV_cons] at h
      by_cases he : e.1 = k
      · rw [if_pos he] at h
        have hv : e.2 = v := Option.some.inj h
        exact List.mem_cons.mpr (Or.inl (by rw [← he, ← hv]))
      · rw [if_neg he] at h
        exact List.mem_cons_of_mem _ (ih h)

theorem lookupKV_eq_none_of_not_mem (d : List (α × β)) (k : α)
    (hk : k ∉ d.map Prod.fst) : lookupKV d k = none := by
  induction d with
  | nil => rfl
  | cons e rest ih =>
      simp only [List.map_cons, List.mem_cons] at hk
      rw [lookupKV_cons, if_neg (fun hc => hk (Or.inl hc.symm))]
      exact ih (fun hc => hk (Or.inr hc))

theorem mem_dictRemove (d : List (α × β)) (k : α) (e : α × β) :
    e ∈ dictRemove d k ↔ e ∈ d ∧ e.1 ≠ k := by
  induction d with
  | nil => simp [dictRemove]
  | cons a rest ih =>
      by_cases ha : a.1 = k
      · rw [show dictRemove (a :: rest) k = dictRemove rest k from by simp [dictRemove, ha]]
        rw [ih]
        constructor
        · rintro ⟨h1, h2⟩
          exact ⟨List.mem_cons_of_mem _ h1, h2⟩
        · rintro ⟨h1, h2⟩
          rcases List.mem_cons.mp h1 with h' | h'
          · exact absurd (h' ▸ ha) h2
          · exact ⟨h', h2⟩
      · rw [show dictRemove (a :: rest) k = a :: dictRemove rest k from by
          simp [dictRemove, ha]]
        simp only [List.mem_cons, ih]
        constructor
        · rintro (h | ⟨h1, h2⟩)
          · exact ⟨Or.inl h, h ▸ ha⟩
          · exact ⟨Or.inr h1, h2⟩
        · rintro ⟨h1 | h1, h2⟩
          · exact Or.inl h1
          · exact Or.inr ⟨h1, h2⟩

theorem mem_dictInsert_iff (d : List (α × β)) (k : α) (v : β)
    (hnd : (d.map Prod.fst).Nodup) (e : α × β) :
    e ∈ dictInsert d k v ↔ e = (k, v) ∨ (e ∈ d ∧ e.1 ≠ k) := by
  induction d with
  | nil => simp [dictInsert]
  | cons a rest ih =>
      simp only [List.map_cons, List.nodup_cons] at hnd
      by_cases ha : a.1 = k
      · rw [show dictInsert (a :: rest) k v = (k, v) :: rest from by simp [dictInsert, ha]]
        simp only [List.mem_cons]
        constructor
        · rintro (h | h)
          · exact Or.inl h
          · have hek : e.1 ≠ k := by
              intro hc
              exact hnd.1 (List.mem_map.mpr ⟨e, h, hc.trans ha.symm⟩)
            exact Or.inr ⟨Or.inr h, hek⟩
        · rintro (h | ⟨h1 | h1, h2⟩)
          · exact Or.inl h
          · exact absurd (h1 ▸ ha) h2
          · exact Or.inr h1
      · rw [show dictInsert (a :: rest) k v = a :: dictInsert rest k v from by
          simp [dictInsert, ha]]
        simp only [List.mem_cons, ih hnd.2]
        constructor
        · rintro (h | h | ⟨h1, h2⟩)
          · exact Or.inr ⟨Or.inl h, h ▸ ha⟩
          · exact Or.inl h
          · exact Or.inr ⟨Or.inr h1, h2⟩
        · rintro (h | ⟨h1 | h1, h2⟩)
          · exact Or.inr (Or.inl h)
          · exact Or.inl h1
          · exact Or.inr (Or.inr ⟨h1, h2⟩)

theorem dictRemove_sublist (d : List (α × β)) (k : α) : (dictRemove d k).Sublist d := by
  induction d with
  | nil => exact List.Sublist.refl _
  | cons e rest ih =>
      by_cases he : e.1 = k
      · rw [show dictRemove (e :: rest) k = dictRemove rest k from by simp [dictRemove, he]]
        exact ih.cons e
      · rw [show dictRemove (e :: rest) k = e :: dictRemove rest k from by
          simp [dictRemove, he]]
        exact ih.cons₂ e

theorem mem_setUnion (s t : List α) (x : α) : x ∈ setUnion s t ↔ x ∈ s ∨ x ∈ t := by
  rw [setUnion, List.mem_append, List.mem_filter]
  by_cases hx : x ∈ s <;> simp [hx]

/-- The symbol-table invariant maintained by define/alias: each symbol
lies in at most one reverse entry, reverse keys are distinct and below the
counter, and the forward map agrees with the reverse map. -/
structure SMInv (st : SymbolMapping α) : Prop where
  uniq : ∀ (x : α) (p q : ℕ × List α), p ∈ st.num2syms → q ∈ st.num2syms →
    x ∈ p.2 → x ∈ q.2 → p = q
  keys : (st.num2syms.map Prod.fst).Nodup
  fresh : ∀ p ∈ st.num2syms, p.1 < st.next_sym_num
  agree : ∀ (s : α) (n : ℕ), to_number st s = some n ↔
    ∃ p, p ∈ st.num2syms ∧ p.1 = n ∧ s ∈ p.2

theorem emptyMapping_inv : SMInv (emptyMapping α) := by
  refine ⟨?_, ?_, ?_, ?_⟩
  · intro x p q hp
    cases hp
  · exact List.nodup_nil
  · intro p hp
    cases hp
  · intro s n
    constructor
    · intro h; cases h
    · rintro ⟨p, hp, -⟩
      cases hp

theorem lookupKV_innerFold (ss : List α) (n : ℕ) :
    ∀ (acc : List (α × ℕ)) (s : α),
    lookupKV (ss.foldl (fun a x => dictInsert a x n) acc) s =
      if s ∈ ss then some n else lookupKV acc s := by
  induction ss with
  | nil => intro acc s; simp
  | cons t rest ih =>
      intro acc s
      rw [List.foldl_cons, ih]
      by_cases hs : s ∈ rest
      · simp [hs]
      · rw [if_neg hs, lookupKV_dictInsert]
        by_cases hst : s = t
        · simp [hst]
        · simp [hst, hs]

theorem lookupKV_rebuildFrom (l : List (ℕ × List α)) :
    ∀ (acc : List (α × ℕ)) (s : α),
    (∀ (x : α) (p q : ℕ × List α), p ∈ l → q ∈ l → x ∈ p.2 → x ∈ q.2 → p = q) →
    (l.map Prod.fst).Nodup →
    lookupKV (l.foldl (fun acc p => p.2.foldl (fun a x => dictInsert a x p.1) acc) acc) s =
      (match l.find? (fun p => decide (s ∈ p.2)) with
       | some p => some p.1
       | none => lookupKV acc s) := by
  induction l with
  | nil => intro acc s _ _; rfl
  | cons p rest ih =>
      intro acc s huniq hnd
      simp only [List.map_cons, List.nodup_cons] at hnd
      rw [List.foldl_cons, ih _ _ (fun x a b ha hb hxa hxb =>
          huniq x a b (List.mem_cons_of_mem _ ha) (List.mem_cons_of_mem _ hb) hxa hxb) hnd.2]
      by_cases hsp : s ∈ p.2
      · have hfr : rest.find? (fun q => decide (s ∈ q.2)) = none := by
          rw [List.find?_eq_none]
          intro q hq
          simp only [decide_eq_true_eq]
          intro hsq
          have hpq := huniq s p q (List.mem_cons_self _ _) (List.mem_cons_of_mem _ hq)
            hsp hsq
          apply hnd.1
          rw [hpq]
          exact List.mem_map.mpr ⟨q, hq, rfl⟩
        rw [hfr, List.find?_cons_of_pos _ (by simpa using hsp)]
        dsimp only
        rw [lookupKV_innerFold, if_pos hsp]
      · rw [List.find?_cons_of_neg _ (by simpa using hsp)]
        cases hfr : rest.find? (fun q => decide (s ∈ q.2)) with
        | some q => rfl
        | none =>
            dsimp only
            rw [lookupKV_innerFold, if_neg hsp]

theorem lookupKV_rebuild_iff (l : List (ℕ × List α))
    (huniq : ∀ (x : α) (p q : ℕ × List α), p ∈ l → q ∈ l → x ∈ p.2 → x ∈ q.2 → p = q)
    (hnd : (l.map Prod.fst).Nodup) (s : α) (n : ℕ) :
    lookupKV (rebuildSym2num l) s = some n ↔ ∃ p, p ∈ l ∧ p.1 = n ∧ s ∈ p.2 := by
  rw [rebuildSym2num, lookupKV_rebuildFrom l [] s huniq hnd]
  cases hf : l.find? (fun p => decide (s ∈ p.2)) with
  | none =>
      dsimp only
      constructor
      · intro h; cases h
      · rintro ⟨p, hp, hpn, hsp⟩
        have := List.find?_eq_none.mp hf p hp
        simp [hsp] at this
  | some p =>
      dsimp only
      constructor
      · intro h
        have hpn : p.1 = n := Option.some.inj h
        refine ⟨p, List.mem_of_find?_eq_some hf, hpn, ?_⟩
        simpa using List.find?_some hf
      · rintro ⟨q, hq, hqn, hsq⟩
        have hp2 : s ∈ p.2 := by simpa using List.find?_some hf
        have hpl := List.mem_of_find?_eq_some hf
        have hpq : p = q := huniq s p q hpl hq hp2 hsq
        rw [hpq, hqn]

theorem new_symbol_raw_to_number (st : SymbolMapping α) (s x : α) :
    to_number (new_symbol_raw st s).1 x =
      if x = s then some st.next_sym_num else to_number st x := by
  simp [new_symbol_raw, to_number, lookupKV_dictInsert]

theorem next_not_mem_keys (st : SymbolMapping α) (hinv : SMInv st) :
    st.next_sym_num ∉ st.num2syms.map Prod.fst := by
  intro h
  obtain ⟨p, hp, hpk⟩ := List.mem_map.mp h
  have := hinv.fresh p hp
  omega

theorem new_symbol_raw_num2syms (st : SymbolMapping α) (s : α) (hinv : SMInv st) :
    (new_symbol_raw st s).1.num2syms = st.num2syms ++ [(st.next_sym_num, [s])] := by
  simp only [new_symbol_raw]
  exact dictInsert_of_lookup_none _ _ _
    (lookupKV_eq_none_of_not_mem _ _ (next_not_mem_keys st hinv))

theorem new_symbol_raw_inv (st : SymbolMapping α) (s : α) (hinv : SMInv st)
    (hundef : to_number st s = none) : SMInv (new_symbol_raw st s).1 := by
  have hn2s := new_symbol_raw_num2syms st s hinv
  have hnotmem : ∀ p ∈ st.num2syms, s ∉ p.2 := by
    intro p hp hsp
    have : to_number st s = some p.1 := (hinv.agree s p.1).mpr ⟨p, hp, rfl, hsp⟩
    rw [hundef] at this
    cases this
  refine ⟨?_, ?_, ?_, ?_⟩
  · intro x p q hp hq hxp hxq
    rw [hn2s] at hp hq
    rcases List.mem_append.mp hp with hp' | hp' <;>
      rcases List.mem_append.mp hq with hq' | hq'
    · exact hinv.uniq x p q hp' hq' hxp hxq
    · exfalso
      rw [List.mem_singleton.mp hq'] at hxq
      exact hnotmem p hp' (List.mem_singleton.mp hxq ▸ hxp)
    · exfalso
      rw [List.mem_singleton.mp hp'] at hxp
      exact hnotmem q hq' (List.mem_singleton.mp hxp ▸ hxq)
    · rw [List.mem_singleton.mp hp', List.mem_singleton.mp hq']
  · rw [hn2s, List.map_append]
    refine List.Nodup.append hinv.keys (by simp) ?_
    intro a ha hb
    simp only [List.map_cons, List.map_nil, List.mem_singleton] at hb
    rw [hb] at ha
    exact next_not_mem_keys st hinv ha
  · intro p hp
    rw [hn2s] at hp
    show p.1 < st.next_sym_num + 1
    rcases List.mem_append.mp hp with hp' | hp'
    · have := hinv.fresh p hp'
      omega
    · rw [List.mem_singleton.mp hp']
      omega
  · intro x n
    rw [new_symbol_raw_to_number]
    by_cases hx : x = s
    · rw [if_pos hx]
      constructor
      · intro h
        refine ⟨(st.next_sym_num, [s]), ?_, Option.some.inj h, by
          rw [hx]; exact List.mem_singleton.mpr rfl⟩
        rw [show (new_symbol_raw st s).1.num2syms =
          st.num2syms ++ [(st.next_sym_num, [s])] from hn2s]
        exact List.mem_append.mpr (Or.inr (List.mem_singleton.mpr rfl))
      · rintro ⟨p, hp, hpn, hxp⟩
        rw [hn2s] at hp
        rcases List.mem_append.mp hp with hp' | hp'
        · exact absurd (hx ▸ hxp) (hnotmem p hp')
        · rw [← hpn, List.mem_singleton.mp hp']
    · rw [if_neg hx, hinv.agree x n]
      constructor
      · rintro ⟨p, hp, hpn, hxp⟩
        refine ⟨p, ?_, hpn, hxp⟩
        rw [hn2s]
        exact List.mem_append.mpr (Or.inl hp)
      · rintro ⟨p, hp, hpn, hxp⟩
        rw [hn2s] at hp
        rcases List.mem_append.mp hp with hp' | hp'
        · exact ⟨p, hp', hpn, hxp⟩
        · exfalso
          rw [List.mem_singleton.mp hp'] at hxp
          exact hx (List.mem_singleton.mp hxp)

theorem mergeNums_spec (st : SymbolMapping α) (num1 num2 : ℕ)
    (hinv : SMInv st) (hne : num1 ≠ num2)
    (s1 s2 : α) (h1 : to_number st s1 = some num1) (h2 : to_number st s2 = some num2) :
    SMInv (mergeNums st num1 num2) ∧
    ∀ x : α, to_number (mergeNums st num1 num2) x =
      if to_number st x = some num1 ∨ to_number st x = some num2
      then some (min num1 num2) else to_number st x := by
  obtain ⟨p1, hp1, hp1n, hs1⟩ := (hinv.agree s1 num1).mp h1
  obtain ⟨p2, hp2, hp2n, hs2⟩ := (hinv.agree s2 num2).mp h2
  have hp1e : p1 = (num1, p1.2) := by
    rw [← hp1n]
  have hp2e : p2 = (num2, p2.2) := by
    rw [← hp2n]
  have hl1 : lookupKV st.num2syms num1 = some p1.2 :=
    lookupKV_of_mem_nodup _ hinv.keys _ _ (hp1e ▸ hp1)
  have hl2 : lookupKV st.num2syms num2 = some p2.2 :=
    lookupKV_of_mem_nodup _ hinv.keys _ _ (hp2e ▸ hp2)
  have hnewold : (min num1 num2 = num1 ∧ max num1 num2 = num2) ∨
      (min num1 num2 = num2 ∧ max num1 num2 = num1) := by omega
  -- the sets attached to the surviving and retired numbers
  obtain ⟨setN, hlN, heN⟩ : ∃ ss, lookupKV st.num2syms (min num1 num2) = some ss ∧
      (min num1 num2, ss) ∈ st.num2syms := by
    rcases hnewold with ⟨hm, -⟩ | ⟨hm, -⟩
    · exact ⟨p1.2, by rw [hm]; exact hl1, by rw [hm]; exact hp1e ▸ hp1⟩
    · exact ⟨p2.2, by rw [hm]; exact hl2, by rw [hm]; exact hp2e ▸ hp2⟩
  obtain ⟨setO, hlO, heO⟩ : ∃ ss, lookupKV st.num2syms (max num1 num2) = some ss ∧
      (max num1 num2, ss) ∈ st.num2syms := by
    rcases hnewold with ⟨-, hm⟩ | ⟨-, hm⟩
    · exact ⟨p2.2, by rw [hm]; exact hl2, by rw [hm]; exact hp2e ▸ hp2⟩
    · exact ⟨p1.2, by rw [hm]; exact hl1, by rw [hm]; exact hp1e ▸ hp1⟩
  have hNO : min num1 num2 ≠ max num1 num2 := by omega
  -- the merged reverse map
  have hn2s : (mergeNums st num1 num2).num2syms =
      dictRemove (dictInsert st.num2syms (min num1 num2) (setUnion setN setO))
        (max num1 num2) := by
    simp only [mergeNums, hlO, hlN]
    rfl
  have hmem : ∀ q : ℕ × List α, q ∈ (mergeNums st num1 num2).num2syms ↔
      (q = (min num1 num2, setUnion setN setO) ∨
        (q ∈ st.num2syms ∧ q.1 ≠ min num1 num2)) ∧ q.1 ≠ max num1 num2 := by
    intro q
    rw [hn2s, mem_dictRemove, mem_dictInsert_iff _ _ _ hinv.keys]
  -- memberships in the merged map, characterized against the old map
  have hmemAt : ∀ (n : ℕ) (x : α),
      (∃ q, q ∈ (mergeNums st num1 num2).num2syms ∧ q.1 = n ∧ x ∈ q.2) ↔
      ((n = min num1 num2 ∧ (x ∈ setN ∨ x ∈ setO)) ∨
        (n ≠ min num1 num2 ∧ n ≠ max num1 num2 ∧
          ∃ p, p ∈ st.num2syms ∧ p.1 = n ∧ x ∈ p.2)) := by
    intro n x
    constructor
    · rintro ⟨q, hq, hqn, hxq⟩
      rcases (hmem q).mp hq with ⟨hq' | ⟨hq', hqne⟩, hqno⟩
      · left
        rw [hq'] at hqn hxq
        exact ⟨hqn.symm, (mem_setUnion _ _ _).mp hxq⟩
      · right
        exact ⟨hqn ▸ hqne, hqn ▸ hqno, q, hq', hqn, hxq⟩
    · rintro (⟨hn, hx⟩ | ⟨hn1, hn2, p, hp, hpn, hxp⟩)
      · refine ⟨(min num1 num2, setUnion setN setO), ?_, hn.symm,
          (mem_setUnion _ _ _).mpr hx⟩
        exact (hmem _).mpr ⟨Or.inl rfl, hNO⟩
      · refine ⟨p, ?_, hpn, hxp⟩
        exact (hmem p).mpr ⟨Or.inr ⟨hp, hpn ▸ hn1⟩, hpn ▸ hn2⟩
  -- invariant: uniqueness
  have huniq' : ∀ (x : α) (p q : ℕ × List α),
      p ∈ (mergeNums st num1 num2).num2syms → q ∈ (mergeNums st num1 num2).num2syms →
      x ∈ p.2 → x ∈ q.2 → p = q := by
    intro x p q hp hq hxp hxq
    rcases (hmem p).mp hp with ⟨hp' | ⟨hp', hpne⟩, hpno⟩ <;>
      rcases (hmem q).mp hq with ⟨hq' | ⟨hq', hqne⟩, hqno⟩
    · rw [hp', hq']
    · exfalso
      rw [hp'] at hxp
      rcases (mem_setUnion _ _ _).mp hxp with hxN | hxO
      · have := hinv.uniq x _ q heN hq' hxN hxq
        exact hqne (by rw [← this])
      · have := hinv.uniq x _ q heO hq' hxO hxq
        exact hqno (by rw [← this])
    · exfalso
      rw [hq'] at hxq
      rcases (mem_setUnion _ _ _).mp hxq with hxN | hxO
      · have := hinv.uniq x _ p heN hp' hxN hxp
        exact hpne (by rw [← this])
      · have := hinv.uniq x _ p heO hp' hxO hxp
        exact hpno (by rw [← this])
    · exact hinv.uniq x p q hp' hq' hxp hxq
  -- invariant: distinct keys
  have hkeys' : ((mergeNums st num1 num2).num2syms.map Prod.fst).Nodup := by
    rw [hn2s]
    exact ((dictRemove_sublist _ _).map Prod.fst).nodup
      (nodupKeys_dictInsert _ _ _ hinv.keys)
  -- the rebuilt forward map
  have hs2n : ∀ (x : α) (n : ℕ),
      to_number (mergeNums st num1 num2) x = some n ↔
      ∃ q, q ∈ (mergeNums st num1 num2).num2syms ∧ q.1 = n ∧ x ∈ q.2 := by
    intro x n
    have hrw : (mergeNums st num1 num2).sym2num =
        rebuildSym2num (mergeNums st num1 num2).num2syms := by
      simp only [mergeNums, hlO, hlN]
    rw [to_number, hrw]
    exact lookupKV_rebuild_iff _ huniq' hkeys' x n
  have hNlt : min num1 num2 < st.next_sym_num := by
    have := hinv.fresh _ heN
    exact this
  refine ⟨⟨huniq', hkeys', ?_, hs2n⟩, ?_⟩
  · intro p hp
    have hnext : (mergeNums st num1 num2).next_sym_num = st.next_sym_num := by
      simp only [mergeNums, hlO, hlN]
    rw [hnext]
    rcases (hmem p).mp hp with ⟨hp' | ⟨hp', -⟩, -⟩
    · rw [hp']
      exact hNlt
    · exact hinv.fresh p hp'
  · have hsetN : ∀ x : α, (∃ q, q ∈ st.num2syms ∧ q.1 = min num1 num2 ∧ x ∈ q.2) →
        x ∈ setN := by
      rintro x ⟨q, hq, hqn, hxq⟩
      have hqe : q = (min num1 num2, setN) :=
        entry_eq_of_nodup_keys _ hinv.keys q _ hq heN (by rw [hqn])
      rw [hqe] at hxq
      exact hxq
    have hsetO : ∀ x : α, (∃ q, q ∈ st.num2syms ∧ q.1 = max num1 num2 ∧ x ∈ q.2) →
        x ∈ setO := by
      rintro x ⟨q, hq, hqn, hxq⟩
      have hqe : q = (max num1 num2, setO) :=
        entry_eq_of_nodup_keys _ hinv.keys q _ hq heO (by rw [hqn])
      rw [hqe] at hxq
      exact hxq
    intro x
    by_cases hc : to_number st x = some num1 ∨ to_number st x = some num2
    · rw [if_pos hc]
      refine (hs2n x (min num1 num2)).mpr ((hmemAt _ x).mpr (Or.inl ⟨rfl, ?_⟩))
      rcases hc with hc | hc
      · obtain ⟨q, hq, hqn, hxq⟩ := (hinv.agree x num1).mp hc
        rcases hnewold with ⟨hm, -⟩ | ⟨-, hM⟩
        · exact Or.inl (hsetN x ⟨q, hq, hqn.trans hm.symm, hxq⟩)
        · exact Or.inr (hsetO x ⟨q, hq, hqn.trans hM.symm, hxq⟩)
      · obtain ⟨q, hq, hqn, hxq⟩ := (hinv.agree x num2).mp hc
        rcases hnewold with ⟨-, hM⟩ | ⟨hm, -⟩
        · exact Or.inr (hsetO x ⟨q, hq, hqn.trans hM.symm, hxq⟩)
        · exact Or.inl (hsetN x ⟨q, hq, hqn.trans hm.symm, hxq⟩)
    · rw [if_neg hc]
      cases hx : to_number st x with
      | some m =>
          have hm1 : m ≠ min num1 num2 := by
            intro hcm
            rcases hnewold with ⟨hmin, -⟩ | ⟨hmin, -⟩
            · exact hc (Or.inl (by rw [hx, hcm, hmin]))
            · exact hc (Or.inr (by rw [hx, hcm, hmin]))
          have hm2 : m ≠ max num1 num2 := by
            intro hcm
            rcases hnewold with ⟨-, hmax⟩ | ⟨-, hmax⟩
            · exact hc (Or.inr (by rw [hx, hcm, hmax]))
            · exact hc (Or.inl (by rw [hx, hcm, hmax]))
          exact (hs2n x m).mpr ((hmemAt m x).mpr
            (Or.inr ⟨hm1, hm2, (hinv.agree x m).mp hx⟩))
      | none =>
          cases hm' : to_number (mergeNums st num1 num2) x with
          | none => rfl
          | some n =>
              exfalso
              rcases (hmemAt n x).mp ((hs2n x n).mp hm') with ⟨-, hxNO⟩ | ⟨-, -, hold⟩
              · rcases hxNO with hxN | hxO
                · have : to_number st x = some (min num1 num2) :=
                    (hinv.agree x _).mpr ⟨_, heN, rfl, hxN⟩
                  rw [hx] at this
                  cases this
                · have : to_number st x = some (max num1 num2) :=
                    (hinv.agree x _).mpr ⟨_, heO, rfl, hxO⟩
                  rw [hx] at this
                  cases this
              · obtain ⟨p, hp, hpn, hxp⟩ := hold
                have : to_number st x = some n := (hinv.agree x n).mpr ⟨p, hp, hpn, hxp⟩
                rw [hx] at this
                cases this

theorem new_symbol_raw_phase (st : SymbolMapping α) (s : α) (hinv : SMInv st)
    (hl : lookupKV st.sym2num s = none) :
    SMInv (new_symbol_raw st s).1 ∧
    to_number (new_symbol_raw st s).1 s = some (new_symbol_raw st s).2 ∧
    ∀ (x : α) (m : ℕ), to_number st x = some m →
      to_number (new_symbol_raw st s).1 x = some m := by
  have hundef : to_number st s = none := hl
  refine ⟨new_symbol_raw_inv st s hinv hundef, ?_, ?_⟩
  · rw [new_symbol_raw_to_number, if_pos rfl]
    rfl
  · intro x m hx
    have hxs : x ≠ s := by
      intro hc
      rw [hc, hundef] at hx
      cases hx
    rw [new_symbol_raw_to_number, if_neg hxs]
    exact hx

theorem alias_tail_facts (st2 : SymbolMapping α) (s1 s2 : α) (num1 num2 : ℕ)
    (hinv2 : SMInv st2) (hs1 : to_number st2 s1 = some num1)
    (hs2 : to_number st2 s2 = some num2) (hne : num1 ≠ num2) :
    SMInv (mergeNums st2 num1 num2) ∧
    to_number (mergeNums st2 num1 num2) s1 = some (min num1 num2) ∧
    to_number (mergeNums st2 num1 num2) s2 = some (min num1 num2) ∧
    ∀ (a b : α) (m : ℕ), to_number st2 a = some m → to_number st2 b = some m →
      ∃ m', to_number (mergeNums st2 num1 num2) a = some m' ∧
        to_number (mergeNums st2 num1 num2) b = some m' := by
  obtain ⟨hinv', hform⟩ := mergeNums_spec st2 num1 num2 hinv2 hne s1 s2 hs1 hs2
  refine ⟨hinv', ?_, ?_, ?_⟩
  · rw [hform s1, if_pos (Or.inl hs1)]
  · rw [hform s2, if_pos (Or.inr hs2)]
  · intro a b m ha hb
    by_cases hm : to_number st2 a = some num1 ∨ to_number st2 a = some num2
    · refine ⟨min num1 num2, ?_, ?_⟩
      · rw [hform a, if_pos hm]
      · rw [hform b, if_pos ?_]
        rcases hm with hm | hm
        · exact Or.inl (by rw [hb, ← ha, hm])
        · exact Or.inr (by rw [hb, ← ha, hm])
    · refine ⟨m, ?_, ?_⟩
      · rw [hform a, if_neg hm, ha]
      · rw [hform b, if_neg ?_, hb]
        intro hcb
        rcases hcb with hcb | hcb
        · exact hm (Or.inl (by rw [ha, ← hb, hcb]))
        · exact hm (Or.inr (by rw [ha, ← hb, hcb]))

theorem aliasSyms_success (st : SymbolMapping α) (s1 s2 : α) (hinv : SMInv st)
    (st' : SymbolMapping α) (n : ℕ) (h : aliasSyms st s1 s2 = (st', some n)) :
    SMInv st' ∧ to_number st' s1 = some n ∧ to_number st' s2 = some n ∧
    ∀ (a b : α) (m : ℕ), to_number st a = some m → to_number st b = some m →
      ∃ m', to_number st' a = some m' ∧ to_number st' b = some m' := by
  cases hl1 : lookupKV st.sym2num s1 with
  | some n1 =>
      cases hl2 : lookupKV st.sym2num s2 with
      | some n2 =>
          simp only [aliasSyms, hl1, hl2] at h
          by_cases hnum : n1 = n2
          · rw [if_pos hnum, Prod.mk.injEq] at h
            obtain ⟨hst, hn⟩ := h
            have hn' : n1 = n := Option.some.inj hn
            subst hst
            refine ⟨hinv, by rw [← hn']; exact hl1, ?_, fun a b m ha hb => ⟨m, ha, hb⟩⟩
            rw [← hn', hnum]
            exact hl2
          · rw [if_neg hnum] at h
            split at h
            next hcond =>
              simp only [Prod.mk.injEq] at h
              cases h.2
            next hcond => simp at hcond
      | none =>
          obtain ⟨hinv2, hs2n, hpres⟩ := new_symbol_raw_phase st s2 hinv hl2
          simp only [aliasSyms, hl1, hl2] at h
          by_cases hnum : n1 = (new_symbol_raw st s2).2
          · rw [if_pos hnum, Prod.mk.injEq] at h
            obtain ⟨hst, hn⟩ := h
            have hn' : n1 = n := Option.some.inj hn
            rw [← hst]
            refine ⟨hinv2, by rw [← hn']; exact hpres s1 n1 hl1, ?_,
              fun a b m ha hb => ⟨m, hpres a m ha, hpres b m hb⟩⟩
            rw [← hn', hnum]
            exact hs2n
          · rw [if_neg hnum] at h
            split at h
            next hcond => simp at hcond
            next hcond =>
            simp only [Prod.mk.injEq] at h
            obtain ⟨hst, hn⟩ := h
            have hn' : min n1 (new_symbol_raw st s2).2 = n := Option.some.inj hn
            obtain ⟨hinvM, hM1, hM2, hMpres⟩ := alias_tail_facts (new_symbol_raw st s2).1
              s1 s2 n1 (new_symbol_raw st s2).2 hinv2 (hpres s1 n1 hl1) hs2n hnum
            rw [← hst, ← hn']
            exact ⟨hinvM, hM1, hM2, fun a b m ha hb =>
              hMpres a b m (hpres a m ha) (hpres b m hb)⟩
  | none =>
      obtain ⟨hinv1, hs1n, hpres1⟩ := new_symbol_raw_phase st s1 hinv hl1
      cases hl2 : lookupKV (new_symbol_raw st s1).1.sym2num s2 with
      | some n2 =>
          simp only [aliasSyms, hl1, hl2] at h
          by_cases hnum : (new_symbol_raw st s1).2 = n2
          · rw [if_pos hnum, Prod.mk.injEq] at h
            obtain ⟨hst, hn⟩ := h
            have hn' : (new_symbol_raw st s1).2 = n := Option.some.inj hn
            rw [← hst]
            refine ⟨hinv1, by rw [← hn']; exact hs1n, ?_,
              fun a b m ha hb => ⟨m, hpres1 a m ha, hpres1 b m hb⟩⟩
            rw [← hn', hnum]
            exact hl2
          · rw [if_neg hnum] at h
            split at h
            next hcond => simp at hcond
            next hcond =>
            simp only [Prod.mk.injEq] at h
            obtain ⟨hst, hn⟩ := h
            have hn' : min (new_symbol_raw st s1).2 n2 = n := Option.some.inj hn
            obtain ⟨hinvM, hM1, hM2, hMpres⟩ := alias_tail_facts (new_symbol_raw st s1).1
              s1 s2 (new_symbol_raw st s1).2 n2 hinv1 hs1n hl2 hnum
            rw [← hst, ← hn']
            exact ⟨hinvM, hM1, hM2, fun a b m ha hb =>
              hMpres a b m (hpres1 a m ha) (hpres1 b m hb)⟩
      | none =>
          obtain ⟨hinv2, hs2n, hpres2⟩ :=
            new_symbol_raw_phase (new_symbol_raw st s1).1 s2 hinv1 hl2
          simp only [aliasSyms, hl1, hl2] at h
          by_cases hnum : (new_symbol_raw st s1).2 =
              (new_symbol_raw (new_symbol_raw st s1).1 s2).2
          · rw [if_pos hnum, Prod.mk.injEq] at h
            obtain ⟨hst, hn⟩ := h
            have hn' : (new_symbol_raw st s1).2 = n := Option.some.inj hn
            rw [← hst]
            refine ⟨hinv2, by rw [← hn']; exact hpres2 s1 _ hs1n, ?_,
              fun a b m ha hb => ⟨m, hpres2 a m (hpres1 a m ha),
                hpres2 b m (hpres1 b m hb)⟩⟩
            rw [← hn', hnum]
            exact hs2n
          · rw [if_neg hnum] at h
            split at h
            next hcond => simp at hcond
            next hcond =>
            simp only [Prod.mk.injEq] at h
            obtain ⟨hst, hn⟩ := h
            have hn' : min (new_symbol_raw st s1).2
                (new_symbol_raw (new_symbol_raw st s1).1 s2).2 = n := Option.some.inj hn
            obtain ⟨hinvM, hM1, hM2, hMpres⟩ :=
              alias_tail_facts (new_symbol_raw (new_symbol_raw st s1).1 s2).1
                s1 s2 (new_symbol_raw st s1).2
                (new_symbol_raw (new_symbol_raw st s1).1 s2).2 hinv2
                (hpres2 s1 _ hs1n) hs2n hnum
            rw [← hst, ← hn']
            exact ⟨hinvM, hM1, hM2, fun a b m ha hb =>
              hMpres a b m (hpres2 a m (hpres1 a m ha))
                (hpres2 b m (hpres1 b m hb))⟩

theorem new_symbol_success (st : SymbolMapping α) (s : α) (hinv : SMInv st)
    (st' : SymbolMapping α) (n : ℕ) (h : new_symbol st s = some (st', n)) :
    SMInv st' ∧
    ∀ (a b : α) (m : ℕ), to_number st a = some m → to_number st b = some m →
      ∃ m', to_number st' a = some m' ∧ to_number st' b = some m' := by
  rw [new_symbol] at h
  by_cases hd : (lookupKV st.sym2num s).isSome
  · rw [if_pos hd] at h
    cases h
  · rw [if_neg hd] at h
    have hl : lookupKV st.sym2num s = none := by
      cases hc : lookupKV st.sym2num s
      · rfl
      · rw [hc] at hd
        exact absurd rfl hd
    obtain ⟨hinv', -, hpres⟩ := new_symbol_raw_phase st s hinv hl
    have hst : st' = (new_symbol_raw st s).1 := by
      have hpr := Option.some.inj h
      exact (congrArg Prod.fst hpr).symm
    rw [hst]
    exact ⟨hinv', fun a b m ha hb => ⟨m, hpres a m ha, hpres b m hb⟩⟩

/-- An observable operation on the symbol table during expansion. -/
inductive SymOp (α : Type) where
  | defineOp : α → SymOp α
  | aliasOp : α → α → SymOp α

/-- Apply one operation; `none` aborts the run (duplicate define, or the
fatal alias of two independently defined symbols). -/
def applyOp (st : SymbolMapping α) : SymOp α → Option (SymbolMapping α)
  | .defineOp s => (new_symbol st s).map Prod.fst
  | .aliasOp s t =>
      match aliasSyms st s t with
      | (st', some _) => some st'
      | (_, none) => none

/-- Run a sequence of operations from a given table. -/
def runOps (st : SymbolMapping α) : List (SymOp α) → Option (SymbolMapping α)
  | [] => some st
  | op :: rest =>
      match applyOp st op with
      | some st' => runOps st' rest
      | none => none

/-- The pairs of symbols passed to `alias` in a sequence of operations. -/
def aliasPairs : List (SymOp α) → List (α × α)
  | [] => []
  | SymOp.defineOp _ :: rest => aliasPairs rest
  | SymOp.aliasOp s t :: rest => (s, t) :: aliasPairs rest

/-- Two symbols were ever aliased together: the symmetric-transitive
closure of the pairs passed to `alias`. -/
inductive Linked (ps : List (α × α)) : α → α → Prop where
  | base {s t : α} : (s, t) ∈ ps → Linked ps s t
  | symm {s t : α} : Linked ps s t → Linked ps t s
  | trans {s t u : α} : Linked ps s t → Linked ps t u → Linked ps s u

theorem applyOp_facts (st st' : SymbolMapping α) (op : SymOp α)
    (hinv : SMInv st) (h : applyOp st op = some st') :
    SMInv st' ∧
    ∀ (a b : α) (m : ℕ), to_number st a = some m → to_number st b = some m →
      ∃ m', to_number st' a = some m' ∧ to_number st' b = some m' := by
  cases op with
  | defineOp s =>
      rw [applyOp] at h
      cases hns : new_symbol st s with
      | none => rw [hns] at h; cases h
      | some pr =>
          rw [hns] at h
          have hst : st' = pr.1 := (Option.some.inj h).symm
          rw [hst]
          exact new_symbol_success st s hinv pr.1 pr.2 (by rw [hns])
  | aliasOp s t =>
      rw [applyOp] at h
      cases has : aliasSyms st s t with
      | mk st1 r =>
          rw [has] at h
          cases r with
          | none => cases h
          | some n =>
              have hst : st' = st1 := (Option.some.inj h).symm
              rw [hst]
              obtain ⟨hinv', -, -, hpres⟩ := aliasSyms_success st s t hinv st1 n has
              exact ⟨hinv', hpres⟩

theorem applyOp_alias_links (st st' : SymbolMapping α) (s t : α)
    (hinv : SMInv st) (h : applyOp st (SymOp.aliasOp s t) = some st') :
    ∃ n, to_number st' s = some n ∧ to_number st' t = some n := by
  rw [applyOp] at h
  cases has : aliasSyms st s t with
  | mk st1 r =>
      rw [has] at h
      cases r with
      | none => cases h
      | some n =>
          have hst : st' = st1 := (Option.some.inj h).symm
          rw [hst]
          obtain ⟨-, h1, h2, -⟩ := aliasSyms_success st s t hinv st1 n has
          exact ⟨n, h1, h2⟩

theorem runOps_facts (ops : List (SymOp α)) : ∀ st st' : SymbolMapping α,
    SMInv st → runOps st ops = some st' →
    SMInv st' ∧
    ∀ (a b : α) (m : ℕ), to_number st a = some m → to_number st b = some m →
      ∃ m', to_number st' a = some m' ∧ to_number st' b = some m' := by
  induction ops with
  | nil =>
      intro st st' hinv h
      have hst : st' = st := (Option.some.inj h).symm
      rw [hst]
      exact ⟨hinv, fun a b m ha hb => ⟨m, ha, hb⟩⟩
  | cons op rest ih =>
      intro st st' hinv h
      rw [runOps] at h
      cases hap : applyOp st op with
      | none => rw [hap] at h; cases h
      | some st1 =>
          rw [hap] at h
          obtain ⟨hinv1, hpres1⟩ := applyOp_facts st st1 op hinv hap
          obtain ⟨hinv', hpres'⟩ := ih st1 st' hinv1 h
          refine ⟨hinv', fun a b m ha hb => ?_⟩
          obtain ⟨m1, ha1, hb1⟩ := hpres1 a b m ha hb
          exact hpres' a b m1 ha1 hb1

theorem runOps_base_pairs (ops : List (SymOp α)) : ∀ st st' : SymbolMapping α,
    SMInv st → runOps st ops = some st' →
    ∀ p ∈ aliasPairs ops,
      ∃ n, to_number st' p.1 = some n ∧ to_number st' p.2 = some n := by
  induction ops with
  | nil =>
      intro st st' _ _ p hp
      cases hp
  | cons op rest ih =>
      intro st st' hinv h p hp
      rw [runOps] at h
      cases hap : applyOp st op with
      | none => rw [hap] at h; cases h
      | some st1 =>
          rw [hap] at h
          have hinv1 : SMInv st1 := (applyOp_facts st st1 op hinv hap).1
          cases op with
          | defineOp s =>
              exact ih st1 st' hinv1 h p hp
          | aliasOp s t =>
              rw [aliasPairs] at hp
              rcases List.mem_cons.mp hp with hp' | hp'
              · obtain ⟨n, hs, ht⟩ := applyOp_alias_links st st1 s t hinv hap
                have hpres := (runOps_facts rest st1 st' hinv1 h).2
                obtain ⟨m, hm1, hm2⟩ := hpres s t n hs ht
                rw [hp']
                exact ⟨m, hm1, hm2⟩
              · exact ih st1 st' hinv1 h p hp'

theorem linked_resolve (ops : List (SymOp α)) (st : SymbolMapping α)
    (hrun : runOps (emptyMapping α) ops = some st) (s t : α)
    (hl : Linked (aliasPairs ops) s t) :
    ∃ n, to_number st s = some n ∧ to_number st t = some n := by
  have hbase := runOps_base_pairs ops (emptyMapping α) st emptyMapping_inv hrun
  induction hl with
  | base hmem => exact hbase _ hmem
  | symm hst ih =>
      obtain ⟨n, h1, h2⟩ := ih
      exact ⟨n, h2, h1⟩
  | trans h1 h2 ih1 ih2 =>
      obtain ⟨n, ha, hb⟩ := ih1
      obtain ⟨m, hb', hc⟩ := ih2
      rw [hb] at hb'
      rw [← Option.some.inj hb'] at hc
      exact ⟨n, ha, hc⟩

/-- C6: after any valid (non-failing) sequence of define/alias operations
starting from an empty table, all symbols ever aliased together
(transitively) resolve to the same index; in particular, alias("a","b")
followed by alias("b","c") with "c" previously undefined yields
symbolsOf(indexOf("a")) = {"a","b","c"}. -/
theorem alias_transitive_resolution :
    (∀ (ops : List (SymOp String)) (st : SymbolMapping String),
      runOps (emptyMapping String) ops = some st →
      ∀ s t : String, Linked (aliasPairs ops) s t →
      ∃ n, to_number st s = some n ∧ to_number st t = some n) ∧
    (match runOps (emptyMapping String)
        [SymOp.aliasOp "a" "b", SymOp.aliasOp "b" "c"] with
     | some st =>
        to_number st "a" = some 0 ∧
        ((to_symbols st 0).getD []).toFinset = ({"a", "b", "c"} : Finset String)
     | none => False) := by
  refine ⟨fun ops st h s t hl => linked_resolve ops st h s t hl, ?_⟩
  have hrun : runOps (emptyMapping String)
      [SymOp.aliasOp "a" "b", SymOp.aliasOp "b" "c"] =
      some ⟨[("a", 0), ("b", 0), ("c", 0)], [(0, ["a", "b", "c"])], 3⟩ := by decide
  rw [hrun]
  exact ⟨rfl, by decide⟩

/-- C6 witness: `alias_transitive_resolution` applied to the one-alias run
producing the table where "x" and "y" share index 0. -/
theorem alias_transitive_resolution_witness :
    to_number (⟨[("x", 0), ("y", 0)], [(0, ["x", "y"])], 2⟩ : SymbolMapping String) "x" =
        some 0 ∧
    to_number (⟨[("x", 0), ("y", 0)], [(0, ["x", "y"])], 2⟩ : SymbolMapping String) "y" =
        some 0 := by
  obtain ⟨n, h1, h2⟩ := alias_transitive_resolution.1 [SymOp.aliasOp "x" "y"]
    ⟨[("x", 0), ("y", 0)], [(0, ["x", "y"])], 2⟩ (by decide) "x" "y"
    (Linked.base (List.mem_singleton.mpr rfl))
  have hn : n = 0 := by
    have h1' := h1
    rw [show to_number (⟨[("x", 0), ("y", 0)], [(0, ["x", "y"])], 2⟩ :
        SymbolMapping String) "x" = some 0 from rfl] at h1'
    exact (Option.some.inj h1').symm
  rw [hn] at h1 h2
  exact ⟨h1, h2⟩

end QMasm
